import Mathlib

set_option maxRecDepth 1000000

/-!
Verification of the font conversion pipeline in
`src/lib/EpdFont/scripts/fontconvert.py`.

Each definition below is a shallow embedding of the corresponding Python
code; line numbers refer to `fontconvert.py`.  Machine bytes are modelled
as `Nat` (with explicit masks where overflow matters), kerning adjustments
as `Int`, Python dicts as association lists in insertion order, and
Python's `sorted` as the stable `List.insertionSort`.
-/

namespace FontConvert

/-! ## Codepoint interval resolver (fontconvert.py lines 132-161) -/

/-- Lexicographic comparison of `(start, end)` tuples, the order used by
Python's `sorted` on 2-tuples (line 143). -/
def tupleLe (a b : Nat × Nat) : Prop :=
  a.1 < b.1 ∨ (a.1 = b.1 ∧ a.2 ≤ b.2)

instance : DecidableRel tupleLe := fun a b => by
  unfold tupleLe; exact inferInstance

instance : IsTotal (Nat × Nat) tupleLe :=
  ⟨by intro a b; unfold tupleLe; omega⟩

instance : IsTrans (Nat × Nat) tupleLe :=
  ⟨by intro a b c; unfold tupleLe; omega⟩

/-- Python's `sorted` on a list of `(start, end)` tuples (line 143);
insertion sort is stable, like CPython's sort. -/
def pySort (l : List (Nat × Nat)) : List (Nat × Nat) :=
  List.insertionSort tupleLe l

/-- The merge loop of lines 146-150.  The accumulator is kept reversed
(most recently appended range first) so that mutating
`unvalidated_intervals[-1]` is an operation on the head; the final
`.reverse` restores the Python list order.  A range is merged into the
previous accumulated range exactly when `i_start + 1 <= last_end`. -/
def mergeLoop : List (Nat × Nat) → List (Nat × Nat) → List (Nat × Nat)
  | acc, [] => acc.reverse
  | [], iv :: rest => mergeLoop [iv] rest
  | lastIv :: accTl, iv :: rest =>
    if iv.1 + 1 ≤ lastIv.2 then
      mergeLoop ((lastIv.1, max lastIv.2 iv.2) :: accTl) rest
    else
      mergeLoop (iv :: lastIv :: accTl) rest

/-- `unvalidated_intervals` (lines 143-150): sort all requested ranges,
then run the merge loop. -/
def unvalidated_intervals (reqs : List (Nat × Nat)) : List (Nat × Nat) :=
  mergeLoop [] (pySort reqs)

/-- A codepoint lies inside some inclusive range of the list. -/
def inSome : List (Nat × Nat) → Nat → Prop
  | [], _ => False
  | iv :: l, c => (iv.1 ≤ c ∧ c ≤ iv.2) ∨ inSome l c

theorem inSome_iff_exists {l : List (Nat × Nat)} {c : Nat} :
    inSome l c ↔ ∃ iv ∈ l, iv.1 ≤ c ∧ c ≤ iv.2 := by
  induction l with
  | nil => simp [inSome]
  | cons iv l ih => simp [inSome, ih]

theorem inSome_reverse {l : List (Nat × Nat)} {c : Nat} :
    inSome l.reverse c ↔ inSome l c := by
  simp [inSome_iff_exists]

/-- The merge loop preserves the set of codepoints covered by the union of
the accumulator and the remaining ranges.  The hypothesis `hs` records
that every remaining range starts no earlier than every accumulated
range. -/
theorem mergeLoop_union (rest : List (Nat × Nat)) :
    ∀ acc : List (Nat × Nat),
      (∀ iv ∈ rest, ∀ a ∈ acc, a.1 ≤ iv.1) →
      rest.Pairwise (fun a b => a.1 ≤ b.1) →
      ∀ c : Nat, inSome (mergeLoop acc rest) c ↔ inSome acc c ∨ inSome rest c := by
  induction rest with
  | nil =>
    intro acc _ _ c
    rw [mergeLoop, inSome_reverse]
    simp [inSome]
  | cons iv rest ih =>
    intro acc hs hsorted c
    rcases hsorted with - | ⟨hivrest, hrest⟩
    obtain ⟨i1, i2⟩ := iv
    match acc with
    | [] =>
      rw [mergeLoop, ih [(i1, i2)]
        (by
          intro jv hj a ha
          rcases List.mem_singleton.mp ha with rfl
          exact hivrest jv hj) hrest c]
      simp [inSome]
    | lastIv :: accTl =>
      obtain ⟨l1, l2⟩ := lastIv
      rw [mergeLoop]
      by_cases hmerge : i1 + 1 ≤ l2
      · rw [if_pos hmerge]
        have hlast : l1 ≤ i1 :=
          hs (i1, i2) (List.mem_cons_self _ _) (l1, l2) (List.mem_cons_self _ _)
        rw [ih ((l1, max l2 i2) :: accTl)
          (by
            intro jv hj a ha
            rcases List.mem_cons.mp ha with rfl | ha
            · exact hs jv (List.mem_cons_of_mem _ hj) (l1, l2) (List.mem_cons_self _ _)
            · exact hs jv (List.mem_cons_of_mem _ hj) a (List.mem_cons_of_mem _ ha))
          hrest c]
        simp only [inSome]
        constructor
        · rintro ((⟨h1, h2⟩ | hA) | hB)
          · by_cases hcl : c ≤ l2
            · exact Or.inl (Or.inl ⟨h1, hcl⟩)
            · exact Or.inr (Or.inl ⟨by omega, by omega⟩)
          · exact Or.inl (Or.inr hA)
          · exact Or.inr (Or.inr hB)
        · rintro ((⟨h1, h2⟩ | hA) | (⟨h1, h2⟩ | hB))
          · exact Or.inl (Or.inl ⟨h1, by omega⟩)
          · exact Or.inl (Or.inr hA)
          · exact Or.inl (Or.inl ⟨by omega, by omega⟩)
          · exact Or.inr hB
      · rw [if_neg hmerge]
        rw [ih ((i1, i2) :: (l1, l2) :: accTl)
          (by
            intro jv hj a ha
            rcases List.mem_cons.mp ha with rfl | ha
            · exact hivrest jv hj
            · exact hs jv (List.mem_cons_of_mem _ hj) a ha)
          hrest c]
        simp only [inSome]
        tauto

/-- The merge loop keeps the (reversed) accumulator chained: each range
starts no earlier than, and no earlier than the end of, the range
accumulated after it.  Reversing gives the order property of the emitted
list. -/
theorem mergeLoop_chain (rest : List (Nat × Nat)) :
    ∀ acc : List (Nat × Nat),
      (∀ iv ∈ rest, ∀ a ∈ acc, a.1 ≤ iv.1) →
      rest.Pairwise (fun a b => a.1 ≤ b.1) →
      List.Chain' (fun a b => b.1 ≤ a.1 ∧ b.2 ≤ a.1) acc →
      List.Chain' (fun a b => a.1 ≤ b.1 ∧ a.2 ≤ b.1) (mergeLoop acc rest) := by
  induction rest with
  | nil =>
    intro acc _ _ hchain
    rw [mergeLoop, List.chain'_reverse]
    exact hchain
  | cons iv rest ih =>
    intro acc hs hsorted hchain
    rcases hsorted with - | ⟨hivrest, hrest⟩
    obtain ⟨i1, i2⟩ := iv
    match acc with
    | [] =>
      rw [mergeLoop]
      refine ih [(i1, i2)] ?_ hrest (List.chain'_singleton _)
      intro jv hj a ha
      rcases List.mem_singleton.mp ha with rfl
      exact hivrest jv hj
    | lastIv :: accTl =>
      obtain ⟨l1, l2⟩ := lastIv
      rw [mergeLoop]
      by_cases hmerge : i1 + 1 ≤ l2
      · rw [if_pos hmerge]
        refine ih _ ?_ hrest ?_
        · intro jv hj a ha
          rcases List.mem_cons.mp ha with rfl | ha
          · exact hs jv (List.mem_cons_of_mem _ hj) (l1, l2) (List.mem_cons_self _ _)
          · exact hs jv (List.mem_cons_of_mem _ hj) a (List.mem_cons_of_mem _ ha)
        · rw [List.chain'_cons'] at hchain ⊢
          exact ⟨hchain.1, hchain.2⟩
      · rw [if_neg hmerge]
        have hlast : l1 ≤ i1 :=
          hs (i1, i2) (List.mem_cons_self _ _) (l1, l2) (List.mem_cons_self _ _)
        refine ih _ ?_ hrest ?_
        · intro jv hj a ha
          rcases List.mem_cons.mp ha with rfl | ha
          · exact hivrest jv hj
          · exact hs jv (List.mem_cons_of_mem _ hj) a ha
        · exact List.chain'_cons.mpr ⟨⟨hlast, by omega⟩, hchain⟩

theorem pySort_sorted (reqs : List (Nat × Nat)) :
    (pySort reqs).Pairwise (fun a b => a.1 ≤ b.1) := by
  have h := List.sorted_insertionSort tupleLe reqs
  exact h.imp (fun hab => by unfold tupleLe at hab; omega)

theorem pySort_mem {reqs : List (Nat × Nat)} {iv : Nat × Nat} :
    iv ∈ pySort reqs ↔ iv ∈ reqs :=
  (List.perm_insertionSort tupleLe reqs).mem_iff

theorem unvalidated_intervals_chain (reqs : List (Nat × Nat)) :
    List.Chain' (fun a b => a.1 ≤ b.1 ∧ a.2 ≤ b.1) (unvalidated_intervals reqs) :=
  mergeLoop_chain (pySort reqs) [] (by intro _ _ a ha; cases ha)
    (pySort_sorted reqs) List.chain'_nil

theorem unvalidated_intervals_union (reqs : List (Nat × Nat)) (c : Nat) :
    inSome (unvalidated_intervals reqs) c ↔ inSome reqs c := by
  rw [unvalidated_intervals,
    mergeLoop_union (pySort reqs) [] (by intro _ _ a ha; cases ha)
      (pySort_sorted reqs) c]
  simp only [inSome, false_or]
  rw [inSome_iff_exists, inSome_iff_exists]
  constructor <;> rintro ⟨iv, hm, h⟩
  · exact ⟨iv, pySort_mem.mp hm, h⟩
  · exact ⟨iv, pySort_mem.mpr hm, h⟩

/-! ## Coverage resolution (fontconvert.py lines 132-141 and 152-161) -/

/-- `load_glyph` (lines 132-141): walk the font stack in priority order and
return the first face whose `get_char_index` is positive.  A face is
modelled by its `get_char_index` function `Nat → Nat` (0 = `.notdef`). -/
def load_glyph (stack : List (Nat → Nat)) (cp : Nat) : Option (Nat → Nat) :=
  stack.find? (fun f => decide (0 < f cp))

/-- A codepoint is served by some font of the stack. -/
def coveredBy (stack : List (Nat → Nat)) (cp : Nat) : Bool :=
  (load_glyph stack cp).isSome

theorem coveredBy_iff {stack : List (Nat → Nat)} {cp : Nat} :
    coveredBy stack cp = true ↔ ∃ f ∈ stack, 0 < f cp := by
  rw [coveredBy, load_glyph, List.find?_isSome]
  simp

/-- The per-range scan of lines 152-161, linearised: `cp` is the loop
variable, `fuel` the number of codepoints still to visit, and `start` the
start of the current candidate run.  After the loop, a pending run is
emitted unless `start` has moved past `i_end`. -/
def splitLoop (stack : List (Nat → Nat)) (iEnd : Nat) :
    Nat → Nat → Nat → List (Nat × Nat)
  | 0, start, _ =>
    if start ≠ iEnd + 1 then [(start, iEnd)] else []
  | fuel + 1, start, cp =>
    if coveredBy stack cp then
      splitLoop stack iEnd fuel start (cp + 1)
    else
      (if start < cp then [(start, cp - 1)] else []) ++
        splitLoop stack iEnd fuel (cp + 1) (cp + 1)

/-- Scan one merged range for maximal fully-covered sub-intervals. -/
def splitInterval (stack : List (Nat → Nat)) (iv : Nat × Nat) : List (Nat × Nat) :=
  splitLoop stack iv.2 (iv.2 + 1 - iv.1) iv.1 iv.1

/-- The final `intervals` list (lines 143-161): merge the requested
ranges, then keep only the codepoint runs covered by the stack. -/
def resolvedIntervals (stack : List (Nat → Nat)) (reqs : List (Nat × Nat)) :
    List (Nat × Nat) :=
  (unvalidated_intervals reqs).flatMap (splitInterval stack)

theorem splitLoop_sound (stack : List (Nat → Nat)) (iEnd : Nat) :
    ∀ fuel start cp, cp + fuel = iEnd + 1 → start ≤ cp →
      (∀ j, start ≤ j → j < cp → coveredBy stack j = true) →
      ∀ iv ∈ splitLoop stack iEnd fuel start cp, ∀ c, iv.1 ≤ c → c ≤ iv.2 →
        coveredBy stack c = true := by
  intro fuel
  induction fuel with
  | zero =>
    intro start cp hfc hsc hcov iv hm c h1 h2
    rw [splitLoop] at hm
    by_cases hse : start ≠ iEnd + 1
    · rw [if_pos hse] at hm
      rcases List.mem_singleton.mp hm with rfl
      exact hcov c h1 (by omega)
    · rw [if_neg hse] at hm
      cases hm
  | succ fuel ih =>
    intro start cp hfc hsc hcov iv hm c h1 h2
    rw [splitLoop] at hm
    by_cases hcp : coveredBy stack cp
    · rw [if_pos hcp] at hm
      refine ih start (cp + 1) (by omega) (by omega) ?_ iv hm c h1 h2
      intro j hj1 hj2
      by_cases hjcp : j = cp
      · exact hjcp ▸ hcp
      · exact hcov j hj1 (by omega)
    · rw [if_neg hcp] at hm
      rcases List.mem_append.mp hm with hm | hm
      · by_cases hslt : start < cp
        · rw [if_pos hslt] at hm
          rcases List.mem_singleton.mp hm with rfl
          exact hcov c h1 (by omega)
        · rw [if_neg hslt] at hm
          cases hm
      · exact ih (cp + 1) (cp + 1) (by omega) le_rfl
          (by intro j hj1 hj2; omega) iv hm c h1 h2

theorem splitLoop_complete (stack : List (Nat → Nat)) (iEnd : Nat) :
    ∀ fuel start cp, cp + fuel = iEnd + 1 → start ≤ cp →
      ∀ c, start ≤ c → c ≤ iEnd → coveredBy stack c = true →
        (c < cp ∨ coveredBy stack c = true) →
        ∃ iv ∈ splitLoop stack iEnd fuel start cp, iv.1 ≤ c ∧ c ≤ iv.2 := by
  intro fuel
  induction fuel with
  | zero =>
    intro start cp hfc hsc c hc1 hc2 _ _
    rw [splitLoop]
    rw [if_pos (by omega)]
    exact ⟨(start, iEnd), List.mem_singleton.mpr rfl, hc1, hc2⟩
  | succ fuel ih =>
    intro start cp hfc hsc c hc1 hc2 hcov _
    rw [splitLoop]
    by_cases hcp : coveredBy stack cp
    · rw [if_pos hcp]
      exact ih start (cp + 1) (by omega) (by omega) c hc1 hc2 hcov (Or.inr hcov)
    · rw [if_neg hcp]
      rcases Nat.lt_trichotomy c cp with hlt | rfl | hgt
      · have hslt : start < cp := by omega
        rw [if_pos hslt]
        exact ⟨(start, cp - 1), List.mem_append_left _ (List.mem_singleton.mpr rfl),
          hc1, by omega⟩
      · exact absurd hcov hcp
      · refine (ih (cp + 1) (cp + 1) (by omega) le_rfl c (by omega) hc2 hcov
          (Or.inr hcov)).imp ?_
        intro iv ⟨hm, h⟩
        exact ⟨List.mem_append_right _ hm, h⟩

instance : ∀ (l : List (Nat × Nat)) (c : Nat), Decidable (inSome l c) :=
  fun _ _ => decidable_of_iff _ inSome_iff_exists.symm

/-- C2: coverage closure.  Every codepoint inside an emitted covered
interval is served by some font of the stack (first conjunct), and every
codepoint inside a merged requested range but outside all emitted
intervals is served by no font (second conjunct): the emitted intervals
are exactly the coverage predicate restricted to the requested ranges. -/
theorem coverage_closure (stack : List (Nat → Nat)) (reqs : List (Nat × Nat)) :
    (∀ iv ∈ resolvedIntervals stack reqs, ∀ c : Nat, iv.1 ≤ c → c ≤ iv.2 →
      ∃ f ∈ stack, 0 < f c) ∧
    (∀ miv ∈ unvalidated_intervals reqs, ∀ c : Nat, miv.1 ≤ c → c ≤ miv.2 →
      (∀ iv ∈ resolvedIntervals stack reqs, ¬ (iv.1 ≤ c ∧ c ≤ iv.2)) →
      ¬ ∃ f ∈ stack, 0 < f c) := by
  constructor
  · intro iv hm c h1 h2
    rcases List.mem_flatMap.mp hm with ⟨miv, hmiv, hsplit⟩
    rw [← coveredBy_iff]
    by_cases hdeg : miv.1 ≤ miv.2 + 1
    · exact splitLoop_sound stack miv.2 (miv.2 + 1 - miv.1) miv.1 miv.1
        (by omega) le_rfl (by intro j h1 h2; omega) iv hsplit c h1 h2
    · rw [splitInterval] at hsplit
      have hz : miv.2 + 1 - miv.1 = 0 := by omega
      rw [hz, splitLoop, if_pos (by omega)] at hsplit
      rcases List.mem_singleton.mp hsplit with rfl
      omega
  · intro miv hmiv c h1 h2 hexcl hcov
    have hc : coveredBy stack c = true := coveredBy_iff.mpr hcov
    have := splitLoop_complete stack miv.2 (miv.2 + 1 - miv.1) miv.1 miv.1
      (by omega) le_rfl c h1 h2 hc (Or.inr hc)
    rcases this with ⟨iv, hm, hin⟩
    exact hexcl iv (List.mem_flatMap.mpr ⟨miv, hmiv, hm⟩) hin

/-- Fixture stack for the coverage witness: one font whose
`get_char_index` is nonzero exactly on codepoints 5 and 6. -/
def stackW : List (Nat → Nat) :=
  [fun cp => if 5 ≤ cp ∧ cp ≤ 6 then 1 else 0]

/-- Witness for C2 at a concrete stack and request list: codepoint 6 lies
in an emitted interval and is indeed served; codepoint 7 lies in the
merged range but in no emitted interval, and no font serves it. -/
theorem coverage_closure_witness :
    (∃ f ∈ stackW, 0 < f 6) ∧ ¬ (∃ f ∈ stackW, 0 < f 7) :=
  ⟨(coverage_closure stackW [(5, 7)]).1 (5, 6) (by decide) 6 (by decide) (by decide),
   (coverage_closure stackW [(5, 7)]).2 (5, 7) (by decide) 7 (by decide) (by decide)
     (by decide)⟩

/-- C3 counterexample: the requested ranges `(0,5)` and `(6,10)` are
adjacent (the later start 6 is `≤` the earlier end 5 plus 1), yet the
merge loop leaves them uncoalesced, so the output is neither coalesced
nor pairwise non-adjacent as the claim requires. -/
theorem interval_coalescing_counterexample :
    unvalidated_intervals [(0, 5), (6, 10)] = [(0, 5), (6, 10)] ∧ 6 ≤ 5 + 1 := by
  constructor
  · rfl
  · decide

/-- C3 (amended): the merge loop coalesces a sorted requested range into
the previous accumulated range only when its start + 1 is at most the
accumulated end; adjacent ranges, and ranges meeting at exactly one
codepoint, stay separate.  The output is ascending by start with each
range ending no later than the start of the next, and it covers exactly
the union of the requested ranges. -/
theorem interval_coalescing (reqs : List (Nat × Nat)) :
    List.Chain' (fun a b => a.1 ≤ b.1 ∧ a.2 ≤ b.1) (unvalidated_intervals reqs) ∧
    (∀ c : Nat, inSome (unvalidated_intervals reqs) c ↔ inSome reqs c) :=
  ⟨unvalidated_intervals_chain reqs, unvalidated_intervals_union reqs⟩

/-- Witness for C3 (amended) at a concrete request list: codepoint 3 is
in the requested union, hence in the merged output. -/
theorem interval_coalescing_witness :
    inSome (unvalidated_intervals [(0, 5), (5, 9)]) 3 :=
  ((interval_coalescing [(0, 5), (5, 9)]).2 3).mpr (by decide)

/-! ## Bitmap quantizer (fontconvert.py lines 174-242)

The 8-bit raster `bitmap.buffer` is a flat row-major list of bytes,
`width * rows` long.  The 4-bit packing loop of lines 174-189 walks it
with index `i`, split as `x = i % width`; the two downsampling loops of
lines 191-242 walk `(y, x)` pairs, linearised here over the single pixel
counter `k = y * width + x` (with `y = k / width`, `x = k % width`),
which is also the counter the flush conditions `% 4 == 3` / `% 8 == 7`
use in the Python code. -/

/-- The 4-bit greyscale packing loop (lines 175-189): `i` is the flat
buffer index, `px` the pending packed byte.  Even columns store the high
nibble of the pixel shifted down; odd columns OR in the high nibble in
place and emit; an odd-width row emits its trailing half byte at end of
line. -/
def p4gGo (w : Nat) : Nat → Nat → List Nat → List Nat
  | _, _, [] => []
  | i, px, v :: rest =>
    if i % w % 2 = 0 then
      if i % w = w - 1 ∧ 0 < w % 2 then
        (v >>> 4) :: p4gGo w (i + 1) 0 rest
      else
        p4gGo w (i + 1) (v >>> 4) rest
    else
      if i % w = w - 1 ∧ 0 < w % 2 then
        (px ||| (v &&& 0xF0)) :: 0 :: p4gGo w (i + 1) 0 rest
      else
        (px ||| (v &&& 0xF0)) :: p4gGo w (i + 1) 0 rest

/-- `pixels4g` (lines 175-189). -/
def pixels4g (w : Nat) (buffer : List Nat) : List Nat :=
  p4gGo w 0 0 buffer

/-- The per-pixel 1-bit threshold of line 235: an even column tests the
low nibble of the packed pair byte against `0xE`, an odd column the high
nibble against `0xE0`. -/
def bwBit (w pitch : Nat) (p4g : List Nat) (k : Nat) : Nat :=
  let x := k % w
  let bm := p4g.getD (k / w * pitch + x / 2) 0
  if (x &&& 1 = 0 ∧ 0 < bm &&& 0xE) ∨ (x &&& 1 = 1 ∧ 0 < bm &&& 0xE0) then 1
  else 0

/-- The 1-bit downsampling loop of lines 228-242, linearised over the
pixel counter `k`; `fuel` counts the remaining pixels, and after the last
pixel a short final byte is left-shifted and emitted (lines 240-242). -/
def pixelsbwGo (w pitch total : Nat) (p4g : List Nat) :
    Nat → Nat → Nat → List Nat
  | 0, _, px =>
    if total % 8 ≠ 0 then [px <<< (8 - total % 8)] else []
  | fuel + 1, k, px =>
    let px1 := (px <<< 1) + bwBit w pitch p4g k
    if k % 8 = 7 then px1 :: pixelsbwGo w pitch total p4g fuel (k + 1) 0
    else pixelsbwGo w pitch total p4g fuel (k + 1) px1

/-- `pixelsbw` (lines 228-242): `pitch = width // 2 + width % 2`. -/
def pixelsbw (w h : Nat) (p4g : List Nat) : List Nat :=
  pixelsbwGo w (w / 2 + w % 2) (w * h) p4g (w * h) 0 0

/-- The 2-bit downsampling loop of lines 194-215, linearised over the
pixel counter `k`.  The nibble is extracted from the packed pair byte and
quantized with the fixed cut points 12, 8, 4. -/
def pixels2bGo (w pitch total : Nat) (p4g : List Nat) :
    Nat → Nat → Nat → List Nat
  | 0, _, px =>
    if total % 4 ≠ 0 then [px <<< ((4 - total % 4) * 2)] else []
  | fuel + 1, k, px =>
    let x := k % w
    let bm := (p4g.getD (k / w * pitch + x / 2) 0 >>> (x % 2 * 4)) &&& 0xF
    let px1 := (px <<< 2) +
      (if 12 ≤ bm then 3 else if 8 ≤ bm then 2 else if 4 ≤ bm then 1 else 0)
    if k % 4 = 3 then px1 :: pixels2bGo w pitch total p4g fuel (k + 1) 0
    else pixels2bGo w pitch total p4g fuel (k + 1) px1

/-- `pixels2b` (lines 194-215). -/
def pixels2b (w h : Nat) (p4g : List Nat) : List Nat :=
  pixels2bGo w (w / 2 + w % 2) (w * h) p4g (w * h) 0 0

theorem pixelsbwGo_length (w pitch total : Nat) (p4g : List Nat) :
    ∀ fuel k px, (pixelsbwGo w pitch total p4g fuel k px).length =
      (k % 8 + fuel) / 8 + (if total % 8 ≠ 0 then 1 else 0) := by
  intro fuel
  induction fuel with
  | zero =>
    intro k px
    rw [pixelsbwGo]
    by_cases h : total % 8 ≠ 0
    · rw [if_pos h, if_pos h]
      simp only [List.length_singleton]
      omega
    · rw [if_neg h, if_neg h]
      simp only [List.length_nil]
      omega
  | succ fuel ih =>
    intro k px
    rw [pixelsbwGo]
    by_cases h : k % 8 = 7
    · rw [if_pos h]
      have h1 : (k + 1) % 8 = 0 := by omega
      simp only [List.length_cons, ih]
      rw [h1, h]
      omega
    · rw [if_neg h]
      rw [ih]
      have h1 : (k + 1) % 8 = k % 8 + 1 := by omega
      rw [h1]
      omega

theorem pixels2bGo_length (w pitch total : Nat) (p4g : List Nat) :
    ∀ fuel k px, (pixels2bGo w pitch total p4g fuel k px).length =
      (k % 4 + fuel) / 4 + (if total % 4 ≠ 0 then 1 else 0) := by
  intro fuel
  induction fuel with
  | zero =>
    intro k px
    rw [pixels2bGo]
    by_cases h : total % 4 ≠ 0
    · rw [if_pos h, if_pos h]
      simp only [List.length_singleton]
      omega
    · rw [if_neg h, if_neg h]
      simp only [List.length_nil]
      omega
  | succ fuel ih =>
    intro k px
    rw [pixels2bGo]
    by_cases h : k % 4 = 3
    · rw [if_pos h]
      have h1 : (k + 1) % 4 = 0 := by omega
      simp only [List.length_cons, ih]
      rw [h1, h]
      omega
    · rw [if_neg h]
      rw [ih]
      have h1 : (k + 1) % 4 = k % 4 + 1 := by omega
      rw [h1]
      omega

/-- C5: quantization length law.  For a `w × h` one-byte-per-pixel
raster, the packed 1-bit buffer has `ceil(w*h/8)` bytes and the packed
2-bit buffer has `ceil(w*h/4)` bytes, for all `w, h ≥ 0` including
`w*h = 0`. -/
theorem quantization_length (w h : Nat) (buffer : List Nat)
    (_hlen : buffer.length = w * h) :
    (pixelsbw w h (pixels4g w buffer)).length = (w * h + 7) / 8 ∧
    (pixels2b w h (pixels4g w buffer)).length = (w * h + 3) / 4 := by
  constructor
  · rw [pixelsbw, pixelsbwGo_length]
    by_cases hm : w * h % 8 = 0
    · rw [if_neg (by omega)]
      omega
    · rw [if_pos hm]
      omega
  · rw [pixels2b, pixels2bGo_length]
    by_cases hm : w * h % 4 = 0
    · rw [if_neg (by omega)]
      omega
    · rw [if_pos hm]
      omega

/-- Witness for C5 on a concrete 3x3 raster. -/
theorem quantization_length_witness :
    (pixelsbw 3 3 (pixels4g 3 [0, 0, 0, 0, 255, 0, 0, 0, 0])).length = (3 * 3 + 7) / 8 ∧
    (pixels2b 3 3 (pixels4g 3 [0, 0, 0, 0, 255, 0, 0, 0, 0])).length = (3 * 3 + 3) / 4 :=
  quantization_length 3 3 [0, 0, 0, 0, 255, 0, 0, 0, 0] rfl

/-! ### Correctness of the 4-bit packing

`pack4gRow` is what one pass of the `pixels4g` loop produces for a single
row: pixel pairs are packed low-nibble-first, and an odd-width row keeps
its trailing half byte. -/

/-- Per-row reference form of the 4-bit packing. -/
def pack4gRow : List Nat → List Nat
  | [] => []
  | [a] => [a >>> 4]
  | a :: b :: rest => ((a >>> 4) ||| (b &&& 0xF0)) :: pack4gRow rest

theorem testBit_of_lt_16 {x : Nat} (hx : x < 16) {i : Nat} (hi : 4 ≤ i) :
    x.testBit i = false :=
  Nat.testBit_lt_two_pow (lt_of_lt_of_le hx (by
    calc (16 : Nat) = 2 ^ 4 := by norm_num
    _ ≤ 2 ^ i := Nat.pow_le_pow_right (by norm_num) hi))

theorem testBit_of_lt_256 {x : Nat} (hx : x < 256) {i : Nat} (hi : 8 ≤ i) :
    x.testBit i = false :=
  Nat.testBit_lt_two_pow (lt_of_lt_of_le hx (by
    calc (256 : Nat) = 2 ^ 8 := by norm_num
    _ ≤ 2 ^ i := Nat.pow_le_pow_right (by norm_num) hi))

theorem shiftRight4_lt {a : Nat} (ha : a < 256) : a >>> 4 < 16 := by
  rw [Nat.shiftRight_eq_div_pow]
  have h : (2 : Nat) ^ 4 = 16 := by norm_num
  rw [h]
  omega

theorem and15_of_lt {x : Nat} (hx : x < 16) : x &&& 15 = x := by
  apply Nat.eq_of_testBit_eq
  intro i
  rw [Nat.testBit_and]
  by_cases hi : i < 4
  · have h15 : (15 : Nat).testBit i = true := by interval_cases i <;> decide
    rw [h15, Bool.and_true]
  · rw [testBit_of_lt_16 hx (by omega), testBit_of_lt_16 (by norm_num) (by omega)]
    rfl

theorem nibblePair_low {a b : Nat} (ha : a < 256) :
    ((a >>> 4) ||| (b &&& 240)) &&& 15 = a >>> 4 := by
  apply Nat.eq_of_testBit_eq
  intro i
  simp only [Nat.testBit_and, Nat.testBit_lor, Nat.testBit_shiftRight]
  by_cases hi : i < 4
  · have h240 : (240 : Nat).testBit i = false := by interval_cases i <;> decide
    have h15 : (15 : Nat).testBit i = true := by interval_cases i <;> decide
    rw [h240, h15, Bool.and_false, Bool.or_false, Bool.and_true]
  · have h15 : (15 : Nat).testBit i = false :=
      testBit_of_lt_16 (by norm_num) (by omega)
    rw [h15, Bool.and_false, testBit_of_lt_256 ha (by omega)]

theorem nibblePair_high {a b : Nat} (ha : a < 256) (hb : b < 256) :
    (((a >>> 4) ||| (b &&& 240)) >>> 4) &&& 15 = b >>> 4 := by
  apply Nat.eq_of_testBit_eq
  intro i
  simp only [Nat.testBit_and, Nat.testBit_lor, Nat.testBit_shiftRight]
  by_cases hi : i < 4
  · have h240 : (240 : Nat).testBit (4 + i) = true := by interval_cases i <;> decide
    have h15 : (15 : Nat).testBit i = true := by interval_cases i <;> decide
    rw [h240, h15, testBit_of_lt_256 ha (by omega), Bool.and_true,
      Bool.and_true, Bool.false_or]
  · have h15 : (15 : Nat).testBit i = false :=
      testBit_of_lt_16 (by norm_num) (by omega)
    rw [h15, Bool.and_false, testBit_of_lt_256 hb (by omega)]

theorem mod_succ_of_lt {i w : Nat} (h : i % w + 1 < w) : (i + 1) % w = i % w + 1 := by
  have hd := Nat.div_add_mod i w
  have h2 : i + 1 = w * (i / w) + (i % w + 1) := by omega
  rw [h2, Nat.mul_add_mod]
  exact Nat.mod_eq_of_lt h

/-- The 4-bit packing loop depends on its index only through `i % w`. -/
theorem p4gGo_mod (w : Nat) :
    ∀ (lst : List Nat) (i j px : Nat), i % w = j % w →
      p4gGo w i px lst = p4gGo w j px lst := by
  intro lst
  induction lst with
  | nil => intro i j px _; rfl
  | cons v rest ih =>
    intro i j px hij
    have h1 : (i + 1) % w = (j + 1) % w := by
      rw [Nat.add_mod, hij, ← Nat.add_mod]
    simp only [p4gGo]
    rw [hij]
    by_cases h2 : j % w % 2 = 0
    · rw [if_pos h2, if_pos h2]
      by_cases h3 : j % w = w - 1 ∧ 0 < w % 2
      · rw [if_pos h3, if_pos h3, ih _ _ _ h1]
      · rw [if_neg h3, if_neg h3, ih _ _ _ h1]
    · rw [if_neg h2, if_neg h2]
      by_cases h3 : j % w = w - 1 ∧ 0 < w % 2
      · rw [if_pos h3, if_pos h3, ih _ _ _ h1]
      · rw [if_neg h3, if_neg h3, ih _ _ _ h1]

/-- One row's worth of the 4-bit packing loop, started at an even column
with an empty pending byte, produces `pack4gRow` of the row. -/
theorem p4gGo_row (w : Nat) (row : List Nat) :
    ∀ (rest : List Nat) (i : Nat), 0 < row.length → row.length ≤ w →
      (w - row.length) % 2 = 0 → i % w = w - row.length →
      p4gGo w i 0 (row ++ rest) = pack4gRow row ++ p4gGo w (i + row.length) 0 rest := by
  induction row using pack4gRow.induct with
  | case1 =>
    intro rest i h0 _ _ _
    simp at h0
  | case2 a =>
    intro rest i _ hle hpar hi
    simp only [List.length_singleton] at hpar hle hi
    simp only [List.singleton_append, List.length_singleton, pack4gRow, p4gGo]
    rw [hi, if_pos hpar, if_pos ⟨rfl, by omega⟩]
    rfl
  | case3 a b rest2 ih =>
    intro rest i h0 hle hpar hi
    simp only [List.length_cons] at hpar hle hi
    have hw2 : 2 ≤ w := by omega
    simp only [List.cons_append, p4gGo, pack4gRow, List.length_cons]
    rw [hi, if_pos (by omega), if_neg (by omega)]
    have hmod1 : (i + 1) % w = w - (rest2.length + 1 + 1) + 1 := by
      rw [mod_succ_of_lt (by omega)]
      omega
    rw [hmod1, if_neg (by omega), if_neg (by omega)]
    simp only [List.append_eq]
    by_cases hr2 : rest2 = []
    · subst hr2
      simp only [List.nil_append, pack4gRow, List.length_nil, List.cons_append,
        List.nil_append]
    · have hlen2 : 0 < rest2.length := List.length_pos.mpr hr2
      have hmod2 : (i + 1 + 1) % w = w - rest2.length := by
        rw [mod_succ_of_lt (by omega)]
        omega
      rw [ih rest (i + 1 + 1) hlen2 (by omega) (by omega) hmod2]
      have h2 : i + 1 + 1 + rest2.length = i + (rest2.length + 1 + 1) := by omega
      rw [h2]

/-- Split a buffer of `hh` rows of `w` pixels into its rows. -/
def rowsOf (w : Nat) : Nat → List Nat → List (List Nat)
  | 0, _ => []
  | hh + 1, buf => buf.take w :: rowsOf w hh (buf.drop w)

theorem p4gGo_rows (w : Nat) (hw : 0 < w) :
    ∀ (hh : Nat) (buffer : List Nat) (i : Nat), buffer.length = w * hh → i % w = 0 →
      p4gGo w i 0 buffer = ((rowsOf w hh buffer).map pack4gRow).flatten := by
  intro hh
  induction hh with
  | zero =>
    intro buffer i hlen _
    have hb : buffer = [] := List.eq_nil_of_length_eq_zero (by omega)
    subst hb
    rfl
  | succ hh ih =>
    intro buffer i hlen hi
    have hmul : w * (hh + 1) = w * hh + w := by ring
    have htake : (buffer.take w).length = w := by
      rw [List.length_take]
      omega
    have hdrop : (buffer.drop w).length = w * hh := by
      rw [List.length_drop]
      omega
    have hrow := p4gGo_row w (buffer.take w) (buffer.drop w) i
      (by omega) (by omega) (by rw [htake]; omega) (by rw [htake]; omega)
    rw [htake] at hrow
    calc p4gGo w i 0 buffer
        = p4gGo w i 0 (buffer.take w ++ buffer.drop w) := by
          rw [List.take_append_drop]
      _ = pack4gRow (buffer.take w) ++ p4gGo w (i + w) 0 (buffer.drop w) := hrow
      _ = pack4gRow (buffer.take w) ++
            ((rowsOf w hh (buffer.drop w)).map pack4gRow).flatten := by
          rw [ih (buffer.drop w) (i + w) hdrop (by rw [Nat.add_mod_right]; exact hi)]
      _ = ((rowsOf w (hh + 1) buffer).map pack4gRow).flatten := by
          rw [rowsOf]
          simp

theorem pixels4g_eq (w hh : Nat) (hw : 0 < w) (buffer : List Nat)
    (hlen : buffer.length = w * hh) :
    pixels4g w buffer = ((rowsOf w hh buffer).map pack4gRow).flatten :=
  p4gGo_rows w hw hh buffer 0 hlen (Nat.zero_mod w)

theorem pack4gRow_length : ∀ row : List Nat,
    (pack4gRow row).length = (row.length + 1) / 2 := by
  intro row
  induction row using pack4gRow.induct with
  | case1 => rfl
  | case2 a => simp [pack4gRow]
  | case3 a b rest2 ih =>
    simp only [pack4gRow, List.length_cons, ih]
    omega

theorem getD_append_right (l m : List Nat) (n : Nat) :
    (l ++ m).getD (l.length + n) 0 = m.getD n 0 := by
  rw [List.getD_eq_getElem?_getD, List.getD_eq_getElem?_getD,
    List.getElem?_append_right (by omega)]
  have h : l.length + n - l.length = n := by omega
  rw [h]

theorem flatten_getD (p : Nat) :
    ∀ (ls : List (List Nat)) (y j : Nat), (∀ l ∈ ls, l.length = p) → j < p →
      y < ls.length →
      ls.flatten.getD (y * p + j) 0 = (ls.getD y []).getD j 0 := by
  intro ls
  induction ls with
  | nil =>
    intro y j _ _ hy
    simp at hy
  | cons l tl ih =>
    intro y j hp hj hy
    match y with
    | 0 =>
      simp only [List.flatten_cons, Nat.zero_mul, Nat.zero_add, List.getD_cons_zero]
      rw [List.getD_append _ _ _ _ (by rw [hp l (List.mem_cons_self _ _)]; exact hj)]
    | y + 1 =>
      simp only [List.flatten_cons, List.getD_cons_succ]
      have hplen : l.length = p := hp l (List.mem_cons_self _ _)
      have harith : (y + 1) * p + j = l.length + (y * p + j) := by
        rw [hplen]; ring
      rw [harith, getD_append_right]
      exact ih y j (fun l2 h2 => hp l2 (List.mem_cons_of_mem _ h2)) hj
        (by simpa using hy)

theorem rowsOf_getD (w : Nat) :
    ∀ (hh : Nat) (buf : List Nat) (y : Nat), y < hh →
      (rowsOf w hh buf).getD y [] = (buf.drop (y * w)).take w := by
  intro hh
  induction hh with
  | zero =>
    intro buf y hy
    omega
  | succ hh ih =>
    intro buf y hy
    match y with
    | 0 => simp [rowsOf]
    | y + 1 =>
      simp only [rowsOf, List.getD_cons_succ]
      rw [ih (buf.drop w) y (by omega), List.drop_drop]
      have h : w + y * w = (y + 1) * w := by ring
      rw [h]

theorem pack4gRow_nibble : ∀ (row : List Nat), (∀ v ∈ row, v < 256) →
    ∀ x, x < row.length →
      ((pack4gRow row).getD (x / 2) 0 >>> (x % 2 * 4)) &&& 15 = row.getD x 0 >>> 4 := by
  intro row
  induction row using pack4gRow.induct with
  | case1 =>
    intro _ x hx
    simp at hx
  | case2 a =>
    intro hb x hx
    have hx0 : x = 0 := by
      simp only [List.length_singleton] at hx
      omega
    subst hx0
    simp only [pack4gRow, List.getD_cons_zero, Nat.zero_div, Nat.zero_mod,
      Nat.zero_mul, Nat.shiftRight_zero]
    exact and15_of_lt (shiftRight4_lt (hb a (List.mem_singleton.mpr rfl)))
  | case3 a b rest2 ih =>
    intro hb x hx
    have ha : a < 256 := hb a (List.mem_cons_self _ _)
    have hbb : b < 256 := hb b (List.mem_cons_of_mem _ (List.mem_cons_self _ _))
    match x with
    | 0 =>
      simp only [pack4gRow, List.getD_cons_zero, Nat.zero_div, Nat.zero_mod,
        Nat.zero_mul, Nat.shiftRight_zero]
      exact nibblePair_low ha
    | 1 =>
      simp only [pack4gRow, List.getD_cons_zero, List.getD_cons_succ]
      norm_num
      exact nibblePair_high ha hbb
    | x + 2 =>
      have hdiv : (x + 2) / 2 = x / 2 + 1 := by omega
      have hmod : (x + 2) % 2 = x % 2 := by omega
      simp only [pack4gRow, hdiv, hmod, List.getD_cons_succ]
      exact ih (fun v hv => hb v (List.mem_cons_of_mem _ (List.mem_cons_of_mem _ hv)))
        x (by simp only [List.length_cons] at hx; omega)

theorem rowsOf_length_list (w : Nat) :
    ∀ (hh : Nat) (buf : List Nat), (rowsOf w hh buf).length = hh := by
  intro hh
  induction hh with
  | zero => intro buf; rfl
  | succ hh ih =>
    intro buf
    simp only [rowsOf, List.length_cons, ih]

theorem rowsOf_row_length (w : Nat) :
    ∀ (hh : Nat) (buf : List Nat), buf.length = w * hh →
      ∀ r ∈ rowsOf w hh buf, r.length = w := by
  intro hh
  induction hh with
  | zero =>
    intro buf _ r hr
    simp [rowsOf] at hr
  | succ hh ih =>
    intro buf hlen r hr
    have hmul : w * (hh + 1) = w * hh + w := by ring
    simp only [rowsOf] at hr
    rcases List.mem_cons.mp hr with rfl | hr2
    · rw [List.length_take]
      omega
    · exact ih (buf.drop w) (by rw [List.length_drop]; omega) r hr2

/-- The nibble the downsampling loops extract from `pixels4g` at pixel
`k` is the high nibble of the original greyscale byte at `k`. -/
theorem pixels4g_nibble (w hh : Nat) (buffer : List Nat)
    (hlen : buffer.length = w * hh) (hb : ∀ v ∈ buffer, v < 256)
    (k : Nat) (hk : k < w * hh) :
    ((pixels4g w buffer).getD (k / w * (w / 2 + w % 2) + k % w / 2) 0 >>>
        (k % w % 2 * 4)) &&& 15
      = buffer.getD k 0 >>> 4 := by
  have hw : 0 < w := by
    rcases Nat.eq_zero_or_pos w with h | h
    · subst h; simp at hk
    · exact h
  have hy : k / w < hh := Nat.div_lt_of_lt_mul (by omega)
  have hx : k % w < w := Nat.mod_lt _ hw
  have hpitch : w / 2 + w % 2 = (w + 1) / 2 := by omega
  rw [pixels4g_eq w hh hw buffer hlen, hpitch]
  have hrowlen : ∀ l ∈ (rowsOf w hh buffer).map pack4gRow, l.length = (w + 1) / 2 := by
    intro l hl
    rcases List.mem_map.mp hl with ⟨r, hr, rfl⟩
    rw [pack4gRow_length, rowsOf_row_length w hh buffer hlen r hr]
  rw [flatten_getD ((w + 1) / 2) ((rowsOf w hh buffer).map pack4gRow)
    (k / w) (k % w / 2) hrowlen (by omega)
    (by rw [List.length_map, rowsOf_length_list]; exact hy)]
  have hmapD : ((rowsOf w hh buffer).map pack4gRow).getD (k / w) [] =
      pack4gRow ((rowsOf w hh buffer).getD (k / w) []) := by
    rw [List.getD_eq_getElem?_getD, List.getD_eq_getElem?_getD, List.getElem?_map,
      List.getElem?_eq_getElem (by rw [rowsOf_length_list]; exact hy)]
    simp
  rw [hmapD, rowsOf_getD w hh buffer (k / w) hy]
  have hrl : ((buffer.drop (k / w * w)).take w).length = w := by
    rw [List.length_take, List.length_drop]
    have hmul : (k / w + 1) * w ≤ hh * w := Nat.mul_le_mul_right w hy
    have hmul2 : (k / w + 1) * w = k / w * w + w := by ring
    have hmul3 : hh * w = w * hh := by ring
    omega
  rw [pack4gRow_nibble ((buffer.drop (k / w * w)).take w)
    (fun v hv => hb v (List.mem_of_mem_drop (List.mem_of_mem_take hv)))
    (k % w) (by omega)]
  have hgd : ((buffer.drop (k / w * w)).take w).getD (k % w) 0 = buffer.getD k 0 := by
    rw [List.getD_eq_getElem?_getD, List.getD_eq_getElem?_getD, List.getElem?_take,
      if_pos hx, List.getElem?_drop]
    have hdm : k / w * w + k % w = k := by
      rw [Nat.mul_comm]
      exact Nat.div_add_mod k w
    rw [hdm]
  rw [hgd]

/-! ### Bit-level correctness of the 1-bit packing -/

theorem shiftLeft_shiftRight_le (px a b : Nat) (h : a ≤ b) :
    (px <<< a) >>> b = px >>> (b - a) := by
  rw [Nat.shiftLeft_eq, Nat.shiftRight_eq_div_pow, Nat.shiftRight_eq_div_pow]
  have h2 : (2 : Nat) ^ b = 2 ^ a * 2 ^ (b - a) := by
    rw [← pow_add]
    congr 1
    omega
  rw [h2, Nat.mul_comm px, Nat.mul_div_mul_left _ _ (Nat.two_pow_pos a)]

theorem shiftLeft_shiftRight_gt (px a b : Nat) (h : b < a) :
    ((px <<< a) >>> b) % 2 = 0 := by
  rw [Nat.shiftLeft_eq, Nat.shiftRight_eq_div_pow]
  have h2 : px * 2 ^ a = px * 2 ^ (a - b) * 2 ^ b := by
    rw [mul_assoc, ← pow_add]
    congr 2
    omega
  rw [h2, Nat.mul_div_cancel _ (Nat.two_pow_pos b)]
  have h3 : a - b = (a - b - 1) + 1 := by omega
  rw [h3, pow_succ, ← mul_assoc]
  exact Nat.mul_mod_left _ 2

theorem px_step_shift (px b s : Nat) (hb : b ≤ 1) (hs : 1 ≤ s) :
    (px * 2 + b) >>> s = px >>> (s - 1) := by
  rw [Nat.shiftRight_eq_div_pow, Nat.shiftRight_eq_div_pow]
  have h2 : (2 : Nat) ^ s = 2 * 2 ^ (s - 1) := by
    conv_lhs => rw [show s = (s - 1) + 1 from by omega]
    rw [pow_succ]
    ring
  rw [h2, ← Nat.div_div_eq_div_mul]
  congr 1
  omega

theorem and224_shift (bm : Nat) : (bm >>> 4) &&& 14 = (bm &&& 224) >>> 4 := by
  apply Nat.eq_of_testBit_eq
  intro i
  simp only [Nat.testBit_and, Nat.testBit_shiftRight]
  by_cases hi : i < 4
  · have he : (14 : Nat).testBit i = (224 : Nat).testBit (4 + i) := by
      interval_cases i <;> decide
    rw [he]
  · rw [testBit_of_lt_16 (show (14 : Nat) < 16 by norm_num) (by omega),
      testBit_of_lt_256 (show (224 : Nat) < 256 by norm_num) (by omega),
      Bool.and_false]

theorem and224_small {bm : Nat} (h : bm &&& 224 < 16) : bm &&& 224 = 0 := by
  apply Nat.eq_of_testBit_eq
  intro i
  rw [Nat.zero_testBit]
  by_cases hi : i < 4
  · rw [Nat.testBit_and]
    have h224 : (224 : Nat).testBit i = false := by interval_cases i <;> decide
    rw [h224, Bool.and_false]
  · exact testBit_of_lt_16 h (by omega)

theorem and224_pos_iff (bm : Nat) : 0 < bm &&& 224 ↔ 0 < (bm >>> 4) &&& 14 := by
  rw [and224_shift, Nat.shiftRight_eq_div_pow]
  have h16 : (2 : Nat) ^ 4 = 16 := by norm_num
  rw [h16]
  constructor
  · intro h
    by_cases hlt : bm &&& 224 < 16
    · rw [and224_small hlt] at h
      omega
    · omega
  · intro h
    omega

theorem and14_eq (bm : Nat) : (bm &&& 15) &&& 14 = bm &&& 14 := by
  rw [Nat.and_assoc]
  congr 1

theorem bwBit_le_one (w pitch : Nat) (p4g : List Nat) (k : Nat) :
    bwBit w pitch p4g k ≤ 1 := by
  simp only [bwBit]
  split
  · exact le_refl 1
  · exact Nat.zero_le 1

/-- The loop's per-pixel bit over `pixels4g` is the any-ink-at-least-2
test on the original byte's high nibble. -/
theorem bwBit_eq (w hh : Nat) (buffer : List Nat) (hlen : buffer.length = w * hh)
    (hb : ∀ v ∈ buffer, v < 256) (k : Nat) (hk : k < w * hh) :
    bwBit w (w / 2 + w % 2) (pixels4g w buffer) k
      = if 0 < (buffer.getD k 0 >>> 4) &&& 14 then 1 else 0 := by
  have hnib := pixels4g_nibble w hh buffer hlen hb k hk
  have hcond : ((k % w &&& 1 = 0 ∧
        0 < (pixels4g w buffer).getD (k / w * (w / 2 + w % 2) + k % w / 2) 0 &&& 14) ∨
      (k % w &&& 1 = 1 ∧
        0 < (pixels4g w buffer).getD (k / w * (w / 2 + w % 2) + k % w / 2) 0 &&& 224))
      ↔ 0 < (buffer.getD k 0 >>> 4) &&& 14 := by
    rw [Nat.and_one_is_mod]
    by_cases hpar : k % w % 2 = 0
    · rw [hpar] at hnib
      simp only [Nat.zero_mul, Nat.shiftRight_zero] at hnib
      rw [← hnib, and14_eq]
      constructor
      · rintro (⟨-, h2⟩ | ⟨h01, -⟩)
        · exact h2
        · omega
      · intro h2
        exact Or.inl ⟨hpar, h2⟩
    · have hpar1 : k % w % 2 = 1 := by omega
      rw [hpar1] at hnib
      simp only [Nat.one_mul] at hnib
      rw [← hnib, and14_eq, ← and224_pos_iff]
      constructor
      · rintro (⟨h01, -⟩ | ⟨-, h2⟩)
        · omega
        · exact h2
      · intro h2
        exact Or.inr ⟨hpar1, h2⟩
  simp only [bwBit]
  by_cases hc : 0 < (buffer.getD k 0 >>> 4) &&& 14
  · rw [if_pos (hcond.mpr hc), if_pos hc]
  · rw [if_neg (fun hx => hc (hcond.mp hx)), if_neg hc]

/-- Positional bit correctness of the 1-bit packing loop: starting the
loop at pixel `k` with a pending byte `px` whose bits agree with the bit
stream, every data position of the output decodes (MSB-first, 8 pixels
per byte) to the loop's per-pixel bit, and the pad positions of a short
final byte decode to 0. -/
theorem pixelsbwGo_bits (w pitch total : Nat) (p4g : List Nat) :
    ∀ fuel k px, k + fuel = total →
      (∀ t, t < k % 8 →
        (px >>> (k % 8 - 1 - t)) &&& 1 = bwBit w pitch p4g (8 * (k / 8) + t)) →
      (∀ m, 8 * (k / 8) ≤ m → m < total →
        ((pixelsbwGo w pitch total p4g fuel k px).getD (m / 8 - k / 8) 0 >>>
            (7 - m % 8)) &&& 1 = bwBit w pitch p4g m) ∧
      (∀ m, 8 * (k / 8) ≤ m → total ≤ m → m < 8 * ((total + 7) / 8) →
        ((pixelsbwGo w pitch total p4g fuel k px).getD (m / 8 - k / 8) 0 >>>
            (7 - m % 8)) &&& 1 = 0) := by
  intro fuel
  induction fuel with
  | zero =>
    intro k px hk hpx
    constructor
    · intro m hm1 hm2
      rw [pixelsbwGo, if_pos (by omega)]
      have hidx : m / 8 - k / 8 = 0 := by omega
      rw [hidx, List.getD_cons_zero]
      have ht : m % 8 < k % 8 := by omega
      rw [shiftLeft_shiftRight_le _ _ _ (by omega)]
      have harg : 7 - m % 8 - (8 - total % 8) = k % 8 - 1 - m % 8 := by omega
      rw [harg, hpx (m % 8) ht]
      congr 1
      omega
    · intro m hm1 hm2 hm3
      rw [pixelsbwGo]
      by_cases hne : total % 8 ≠ 0
      · rw [if_pos hne]
        have hidx : m / 8 - k / 8 = 0 := by omega
        rw [hidx, List.getD_cons_zero, Nat.and_one_is_mod]
        exact shiftLeft_shiftRight_gt _ _ _ (by omega)
      · exfalso
        omega
  | succ fuel ih =>
    intro k px hk hpx
    have hble := bwBit_le_one w pitch p4g k
    have hpx1 : ∀ t, t < k % 8 + 1 →
        (((px <<< 1) + bwBit w pitch p4g k) >>> (k % 8 - t)) &&& 1
          = bwBit w pitch p4g (8 * (k / 8) + t) := by
      intro t ht
      rw [Nat.shiftLeft_eq, pow_one]
      by_cases htk : t = k % 8
      · subst htk
        rw [Nat.sub_self, Nat.shiftRight_zero, Nat.and_one_is_mod]
        have hmod : (px * 2 + bwBit w pitch p4g k) % 2 = bwBit w pitch p4g k := by
          omega
        rw [hmod]
        congr 1
        omega
      · rw [px_step_shift px _ _ hble (by omega)]
        have harg : k % 8 - t - 1 = k % 8 - 1 - t := by omega
        rw [harg]
        exact hpx t (by omega)
    by_cases hk8 : k % 8 = 7
    · constructor
      · intro m hm1 hm2
        simp only [pixelsbwGo]
        rw [if_pos hk8]
        by_cases hmk : m / 8 = k / 8
        · have hidx : m / 8 - k / 8 = 0 := by omega
          rw [hidx, List.getD_cons_zero]
          have hstep := hpx1 (m % 8) (by omega)
          rw [hk8] at hstep
          rw [hstep]
          congr 1
          omega
        · have hidx : m / 8 - k / 8 = (m / 8 - (k + 1) / 8) + 1 := by omega
          rw [hidx, List.getD_cons_succ]
          exact (ih (k + 1) 0 (by omega)
            (by intro t ht; exact absurd ht (by omega))).1 m (by omega) hm2
      · intro m hm1 hm2 hm3
        simp only [pixelsbwGo]
        rw [if_pos hk8]
        have hidx : m / 8 - k / 8 = (m / 8 - (k + 1) / 8) + 1 := by omega
        rw [hidx, List.getD_cons_succ]
        exact (ih (k + 1) 0 (by omega)
          (by intro t ht; exact absurd ht (by omega))).2 m (by omega) hm2 hm3
    · have hk1d : (k + 1) / 8 = k / 8 := by omega
      have hih := ih (k + 1) ((px <<< 1) + bwBit w pitch p4g k) (by omega)
        (by
          intro t ht
          have hk1m : (k + 1) % 8 = k % 8 + 1 := by omega
          rw [hk1m] at ht
          have harg : (k + 1) % 8 - 1 - t = k % 8 - t := by omega
          rw [harg, hk1d]
          exact hpx1 t ht)
      simp only [pixelsbwGo]
      rw [if_neg hk8]
      constructor
      · intro m hm1 hm2
        have hres := hih.1 m (by omega) hm2
        rw [hk1d] at hres
        exact hres
      · intro m hm1 hm2 hm3
        have hres := hih.2 m (by omega) hm2 hm3
        rw [hk1d] at hres
        exact hres

/-- C6 counterexample: a 1-by-1 raster whose single pixel has greyscale
value 16, so its downsampled 4-bit nibble is 1 -- non-zero ink.  The
claim requires the pixel to map to 1 (packed byte 0x80), but the code
tests `nibble & 0xE`, treating nibble 1 as white: the emitted buffer is
`[0x00]` and the pixel's bit is 0. -/
theorem bw_any_ink_counterexample :
    0 < (16 : Nat) >>> 4 ∧
    pixelsbw 1 1 (pixels4g 1 [16]) = [0] ∧
    ((pixelsbw 1 1 (pixels4g 1 [16])).getD 0 0 >>> 7) &&& 1 = 0 := by
  refine ⟨by decide, by decide, by decide⟩

/-- C6 (amended): in 1-bit mode a pixel maps to 1 exactly when its
downsampled high nibble masked with `0xE` is non-zero, i.e. when the
nibble is at least 2 (the code's `treat any 2+ as black`), not when it
is merely non-zero.  Bits are packed row-major, 8 pixels per byte,
MSB-first (pixel `k` is bit `7 - k % 8` of byte `k / 8`), the output has
exactly `ceil(w*h/8)` bytes, and the unused low bits of a short final
byte are zero (the final byte is left-shifted). -/
theorem bw_any_ink (w h : Nat) (buffer : List Nat)
    (hlen : buffer.length = w * h) (hb : ∀ v ∈ buffer, v < 256) :
    (pixelsbw w h (pixels4g w buffer)).length = (w * h + 7) / 8 ∧
    (∀ k, k < w * h →
      ((pixelsbw w h (pixels4g w buffer)).getD (k / 8) 0 >>> (7 - k % 8)) &&& 1
        = (if 0 < (buffer.getD k 0 >>> 4) &&& 0xE then 1 else 0)) ∧
    (∀ k, w * h ≤ k → k < 8 * ((w * h + 7) / 8) →
      ((pixelsbw w h (pixels4g w buffer)).getD (k / 8) 0 >>> (7 - k % 8)) &&& 1
        = 0) := by
  have hmain := pixelsbwGo_bits w (w / 2 + w % 2) (w * h) (pixels4g w buffer)
    (w * h) 0 0 (by omega) (by intro t ht; exact absurd ht (by omega))
  refine ⟨?_, ?_, ?_⟩
  · rw [pixelsbw, pixelsbwGo_length]
    by_cases hm : w * h % 8 = 0
    · rw [if_neg (by omega)]
      omega
    · rw [if_pos hm]
      omega
  · intro k hk
    have hres := hmain.1 k (by omega) hk
    have hidx : k / 8 - 0 / 8 = k / 8 := by omega
    rw [hidx] at hres
    rw [pixelsbw, hres]
    exact bwBit_eq w h buffer hlen hb k hk
  · intro k hk1 hk2
    have hres := hmain.2 k (by omega) hk1 hk2
    have hidx : k / 8 - 0 / 8 = k / 8 := by omega
    rw [hidx] at hres
    rw [pixelsbw]
    exact hres

/-- Witness for C6 (amended) on a 1-by-1 raster with greyscale 32
(nibble 2): the packed bit is 1. -/
theorem bw_any_ink_witness :
    ((pixelsbw 1 1 (pixels4g 1 [32])).getD (0 / 8) 0 >>> (7 - 0 % 8)) &&& 1
      = (if 0 < (([32] : List Nat).getD 0 0 >>> 4) &&& 0xE then 1 else 0) :=
  (bw_any_ink 1 1 [32] rfl (by decide)).2.1 0 (by decide)

/-! ## Kerning class compressor (fontconvert.py lines 428-479) -/

/-- A kerning pair map: association list from `(left, right)` codepoints
to the pixel adjustment, in dict insertion order, with unique keys. -/
abbrev KernMap := List ((Nat × Nat) × Int)

/-- `kern_map.get((l, r), 0)` (lines 440 and 451). -/
def kmLookup (m : KernMap) (l r : Nat) : Int :=
  (m.lookup (l, r)).getD 0

/-- `sorted(all_left_cps)` (line 433). -/
def sorted_left_cps (m : KernMap) : List Nat :=
  List.insertionSort (fun a b => a ≤ b) (m.map (fun p => p.1.1)).dedup

/-- `sorted(all_right_cps)` (line 432). -/
def sorted_right_cps (m : KernMap) : List Nat :=
  List.insertionSort (fun a b => a ≤ b) (m.map (fun p => p.1.2)).dedup

/-- Row profile of a left codepoint (line 440). -/
def leftProfile (m : KernMap) (l : Nat) : List Int :=
  (sorted_right_cps m).map (fun r => kmLookup m l r)

/-- Column profile of a right codepoint (line 451). -/
def rightProfile (m : KernMap) (r : Nat) : List Int :=
  (sorted_left_cps m).map (fun l => kmLookup m l r)

/-- The class-discovery loop (lines 437-444 and 448-455): `seen` is the
profile-to-class dict, `next` the next class id.  Returns the class map
as (codepoint, id) pairs in traversal order, the final dict, and the
final next id. -/
def classLoop (prof : Nat → List Int) :
    List Nat → List (List Int × Nat) → Nat →
      List (Nat × Nat) × List (List Int × Nat) × Nat
  | [], seen, next => ([], seen, next)
  | cp :: rest, seen, next =>
    match seen.lookup (prof cp) with
    | some cid =>
      let res := classLoop prof rest seen next
      ((cp, cid) :: res.1, res.2)
    | none =>
      let res := classLoop prof rest ((prof cp, next) :: seen) (next + 1)
      ((cp, next) :: res.1, res.2)

/-- First-seen deduplication of a profile sequence: the distinct
profiles in order of first appearance, i.e. the order in which the loop
hands out class ids. -/
def firstSeenAux (acc : List (List Int)) : List (List Int) → List (List Int)
  | [] => acc
  | p :: rest =>
    if p ∈ acc then firstSeenAux acc rest else firstSeenAux (acc ++ [p]) rest

def firstSeen (l : List (List Int)) : List (List Int) :=
  firstSeenAux [] l

theorem firstSeenAux_append (l1 : List (List Int)) :
    ∀ (acc l2 : List (List Int)),
      firstSeenAux acc (l1 ++ l2) = firstSeenAux (firstSeenAux acc l1) l2 := by
  induction l1 with
  | nil => intro acc l2; rfl
  | cons p l1 ih =>
    intro acc l2
    simp only [List.cons_append, firstSeenAux]
    by_cases hp : p ∈ acc
    · rw [if_pos hp, if_pos hp]
      exact ih acc l2
    · rw [if_neg hp, if_neg hp]
      exact ih (acc ++ [p]) l2

theorem firstSeenAux_prefix : ∀ (l acc : List (List Int)),
    ∃ suf, firstSeenAux acc l = acc ++ suf := by
  intro l
  induction l with
  | nil => intro acc; exact ⟨[], (List.append_nil acc).symm⟩
  | cons p l ih =>
    intro acc
    simp only [firstSeenAux]
    by_cases hp : p ∈ acc
    · rw [if_pos hp]; exact ih acc
    · rw [if_neg hp]
      rcases ih (acc ++ [p]) with ⟨suf, hsuf⟩
      exact ⟨[p] ++ suf, by rw [hsuf, List.append_assoc]⟩

theorem mem_firstSeenAux : ∀ (l acc : List (List Int)) (p : List Int),
    p ∈ firstSeenAux acc l ↔ p ∈ acc ∨ p ∈ l := by
  intro l
  induction l with
  | nil => intro acc p; simp [firstSeenAux]
  | cons q l ih =>
    intro acc p
    simp only [firstSeenAux]
    by_cases hq : q ∈ acc
    · rw [if_pos hq, ih]
      constructor
      · rintro (h | h)
        · exact Or.inl h
        · exact Or.inr (List.mem_cons_of_mem _ h)
      · rintro (h | h)
        · exact Or.inl h
        · rcases List.mem_cons.mp h with rfl | h2
          · exact Or.inl hq
          · exact Or.inr h2
    · rw [if_neg hq, ih]
      simp only [List.mem_append, List.mem_singleton, List.mem_cons]
      tauto

theorem mem_firstSeen {l : List (List Int)} {p : List Int} :
    p ∈ firstSeen l ↔ p ∈ l := by
  rw [firstSeen, mem_firstSeenAux]
  simp

theorem firstSeen_snoc_mem {l : List (List Int)} {q : List Int} (h : q ∈ l) :
    firstSeen (l ++ [q]) = firstSeen l := by
  rw [firstSeen, firstSeenAux_append]
  show firstSeenAux (firstSeen l) [q] = firstSeen l
  simp only [firstSeenAux]
  rw [if_pos (mem_firstSeen.mpr h)]

theorem firstSeen_snoc_not_mem {l : List (List Int)} {q : List Int} (h : q ∉ l) :
    firstSeen (l ++ [q]) = firstSeen l ++ [q] := by
  rw [firstSeen, firstSeenAux_append]
  show firstSeenAux (firstSeen l) [q] = firstSeen l ++ [q]
  simp only [firstSeenAux]
  rw [if_neg (fun hx => h (mem_firstSeen.mp hx))]

theorem firstSeen_prefix (l1 l2 : List (List Int)) :
    ∃ suf, firstSeen (l1 ++ l2) = firstSeen l1 ++ suf := by
  rw [firstSeen, firstSeenAux_append]
  exact firstSeenAux_prefix l2 (firstSeen l1)

theorem beq_false_of_ne {α : Type} [BEq α] [LawfulBEq α] {a b : α} (h : a ≠ b) :
    (a == b) = false := by
  cases hab : a == b
  · rfl
  · exact absurd (eq_of_beq hab) h

theorem indexOf_snoc_self {α : Type} [BEq α] [LawfulBEq α] :
    ∀ (l : List α) (q : α), q ∉ l → (l ++ [q]).indexOf q = l.length := by
  intro l q
  induction l with
  | nil =>
    intro
    rw [List.nil_append, List.indexOf_cons, beq_self_eq_true, cond_true,
      List.length_nil]
  | cons a l ih =>
    intro h
    rw [List.cons_append, List.indexOf_cons]
    have hne : (a == q) = false :=
      beq_false_of_ne (fun heq => h (by rw [heq]; exact List.mem_cons_self _ _))
    rw [hne, cond_false, ih (fun hm => h (List.mem_cons_of_mem _ hm)),
      List.length_cons]

theorem indexOf_append_left {α : Type} [BEq α] [LawfulBEq α] :
    ∀ (l1 l2 : List α) (a : α), a ∈ l1 → (l1 ++ l2).indexOf a = l1.indexOf a := by
  intro l1
  induction l1 with
  | nil =>
    intro l2 a h
    cases h
  | cons c l1 ih =>
    intro l2 a h
    rw [List.cons_append, List.indexOf_cons, List.indexOf_cons]
    cases hc : c == a
    · rw [cond_false, cond_false, ih l2 a (by
        rcases List.mem_cons.mp h with rfl | h2
        · rw [beq_self_eq_true] at hc
          cases hc
        · exact h2)]
    · rw [cond_true, cond_true]

theorem indexOf_lt_of_mem {α : Type} [BEq α] [LawfulBEq α] :
    ∀ (l : List α) (a : α), a ∈ l → l.indexOf a < l.length := by
  intro l
  induction l with
  | nil =>
    intro a h
    cases h
  | cons c l ih =>
    intro a h
    rw [List.indexOf_cons, List.length_cons]
    cases hc : c == a
    · rw [cond_false]
      have h2 : a ∈ l := by
        rcases List.mem_cons.mp h with rfl | h2
        · rw [beq_self_eq_true] at hc
          cases hc
        · exact h2
      exact Nat.succ_lt_succ (ih a h2)
    · rw [cond_true]
      exact Nat.succ_pos _

theorem eq_of_indexOf_eq {α : Type} [BEq α] [LawfulBEq α] :
    ∀ (l : List α) (a b : α), a ∈ l → b ∈ l →
      l.indexOf a = l.indexOf b → a = b := by
  intro l
  induction l with
  | nil =>
    intro a b h
    cases h
  | cons c l ih =>
    intro a b ha hb hidx
    rw [List.indexOf_cons, List.indexOf_cons] at hidx
    cases hca : c == a <;> cases hcb : c == b <;>
      rw [hca] at hidx <;> rw [hcb] at hidx
    · have ha2 : a ∈ l := by
        rcases List.mem_cons.mp ha with rfl | h2
        · rw [beq_self_eq_true] at hca
          cases hca
        · exact h2
      have hb2 : b ∈ l := by
        rcases List.mem_cons.mp hb with rfl | h2
        · rw [beq_self_eq_true] at hcb
          cases hcb
        · exact h2
      rw [cond_false, cond_false] at hidx
      exact ih a b ha2 hb2 (by omega)
    · rw [cond_false, cond_true] at hidx
      cases hidx
    · rw [cond_true, cond_false] at hidx
      cases hidx
    · exact (eq_of_beq hca).symm.trans (eq_of_beq hcb)

/-- Characterisation of the class-discovery loop: given a dict that
already assigned first-seen ids to the profiles of `pre`, the loop maps
each codepoint to the first-seen index of its profile (over the whole
traversal) plus 1, and the final id is the number of distinct profiles
plus 1. -/
theorem classLoop_spec (prof : Nat → List Int) :
    ∀ (cps : List Nat) (pre : List (List Int)) (seen : List (List Int × Nat)),
      (∀ p : List Int, seen.lookup p =
        if p ∈ pre then some ((firstSeen pre).indexOf p + 1) else none) →
      (classLoop prof cps seen ((firstSeen pre).length + 1)).1 =
        cps.map (fun cp =>
          (cp, (firstSeen (pre ++ cps.map prof)).indexOf (prof cp) + 1)) ∧
      (classLoop prof cps seen ((firstSeen pre).length + 1)).2.2 =
        (firstSeen (pre ++ cps.map prof)).length + 1 := by
  intro cps
  induction cps with
  | nil =>
    intro pre seen hseen
    simp [classLoop]
  | cons cp rest ih =>
    intro pre seen hseen
    have hq := hseen (prof cp)
    by_cases hmem : prof cp ∈ pre
    · rw [if_pos hmem] at hq
      have hpre : pre ++ (cp :: rest).map prof =
          (pre ++ [prof cp]) ++ rest.map prof := by
        simp [List.append_assoc]
      have hfs : firstSeen (pre ++ [prof cp]) = firstSeen pre :=
        firstSeen_snoc_mem hmem
      have hseen2 : ∀ p : List Int, seen.lookup p =
          if p ∈ pre ++ [prof cp] then
            some ((firstSeen (pre ++ [prof cp])).indexOf p + 1) else none := by
        intro p
        rw [hfs, hseen p]
        by_cases hp : p ∈ pre
        · rw [if_pos hp, if_pos (List.mem_append_left _ hp)]
        · rw [if_neg hp, if_neg (by
            intro hx
            rcases List.mem_append.mp hx with hx | hx
            · exact hp hx
            · rcases List.mem_singleton.mp hx with rfl
              exact hp hmem)]
      have hihres := ih (pre ++ [prof cp]) seen hseen2
      rw [hfs] at hihres
      have hpre2 : pre ++ prof cp :: rest.map prof =
          (pre ++ [prof cp]) ++ rest.map prof := by
        simp
      simp only [classLoop, hq]
      constructor
      · simp only [List.map_cons, hpre2]
        rw [hihres.1]
        have hidx : (firstSeen ((pre ++ [prof cp]) ++ rest.map prof)).indexOf
            (prof cp) = (firstSeen pre).indexOf (prof cp) := by
          rcases firstSeen_prefix (pre ++ [prof cp]) (rest.map prof) with ⟨suf, hsuf⟩
          rw [hsuf, hfs, indexOf_append_left _ _ _ (mem_firstSeen.mpr hmem)]
        rw [hidx]
      · simp only [List.map_cons, hpre2]
        rw [hihres.2]
    · rw [if_neg hmem] at hq
      have hfs : firstSeen (pre ++ [prof cp]) = firstSeen pre ++ [prof cp] :=
        firstSeen_snoc_not_mem hmem
      have hnfs : prof cp ∉ firstSeen pre := fun hx => hmem (mem_firstSeen.mp hx)
      have hidxq : (firstSeen (pre ++ [prof cp])).indexOf (prof cp) =
          (firstSeen pre).length := by
        rw [hfs]
        exact indexOf_snoc_self _ _ hnfs
      have hseen2 : ∀ p : List Int,
          ((prof cp, (firstSeen pre).length + 1) :: seen).lookup p =
          if p ∈ pre ++ [prof cp] then
            some ((firstSeen (pre ++ [prof cp])).indexOf p + 1) else none := by
        intro p
        rw [List.lookup_cons]
        by_cases hp : p = prof cp
        · have hbeq : (p == prof cp) = true := by
            rw [hp]
            exact beq_self_eq_true _
          have hmem2 : p ∈ pre ++ [prof cp] := by
            rw [hp]
            exact List.mem_append_right _ (List.mem_singleton.mpr rfl)
          simp only [hbeq]
          rw [if_pos hmem2, hp, hidxq]
        · have hbeq : (p == prof cp) = false := beq_false_of_ne hp
          simp only [hbeq]
          rw [hseen p]
          by_cases hpp : p ∈ pre
          · rw [if_pos hpp, if_pos (List.mem_append_left _ hpp)]
            have : (firstSeen (pre ++ [prof cp])).indexOf p =
                (firstSeen pre).indexOf p := by
              rw [hfs]
              exact indexOf_append_left _ _ _ (mem_firstSeen.mpr hpp)
            rw [this]
          · rw [if_neg hpp, if_neg (by
              intro hx
              rcases List.mem_append.mp hx with hx | hx
              · exact hpp hx
              · exact hp (List.mem_singleton.mp hx))]
      have hlen2 : (firstSeen (pre ++ [prof cp])).length + 1 =
          (firstSeen pre).length + 1 + 1 := by
        rw [hfs, List.length_append, List.length_singleton]
      have hihres := ih (pre ++ [prof cp])
        ((prof cp, (firstSeen pre).length + 1) :: seen) hseen2
      rw [hlen2] at hihres
      have hpre2 : pre ++ prof cp :: rest.map prof =
          (pre ++ [prof cp]) ++ rest.map prof := by
        simp
      simp only [classLoop, hq]
      constructor
      · simp only [List.map_cons, hpre2]
        rw [hihres.1]
        have hidx : (firstSeen ((pre ++ [prof cp]) ++ rest.map prof)).indexOf
            (prof cp) = (firstSeen pre).length := by
          rcases firstSeen_prefix (pre ++ [prof cp]) (rest.map prof) with ⟨suf, hsuf⟩
          rw [hsuf, indexOf_append_left _ _ _ (by
            rw [hfs]
            exact List.mem_append_right _ (List.mem_singleton.mpr rfl)), hidxq]
        rw [hidx]
      · simp only [List.map_cons, hpre2]
        rw [hihres.2]

/-- The left class assignment (lines 437-444): traversal over the sorted
left codepoints, starting with an empty dict and class id 1. -/
def left_class_assignment (m : KernMap) :
    List (Nat × Nat) × List (List Int × Nat) × Nat :=
  classLoop (leftProfile m) (sorted_left_cps m) [] 1

/-- The right class assignment (lines 448-455). -/
def right_class_assignment (m : KernMap) :
    List (Nat × Nat) × List (List Int × Nat) × Nat :=
  classLoop (rightProfile m) (sorted_right_cps m) [] 1

/-- `left_class_map` as an association list. -/
def left_class_map (m : KernMap) : List (Nat × Nat) :=
  (left_class_assignment m).1

def right_class_map (m : KernMap) : List (Nat × Nat) :=
  (right_class_assignment m).1

/-- `kern_left_class_count = left_class_id - 1` (line 457). -/
def kern_left_class_count (m : KernMap) : Nat :=
  (left_class_assignment m).2.2 - 1

/-- `kern_right_class_count = right_class_id - 1` (line 458). -/
def kern_right_class_count (m : KernMap) : Nat :=
  (right_class_assignment m).2.2 - 1

/-- `left_class_map[lcp]` (line 468). -/
def leftClassOf (m : KernMap) (l : Nat) : Nat :=
  ((left_class_map m).lookup l).getD 0

def rightClassOf (m : KernMap) (r : Nat) : Nat :=
  ((right_class_map m).lookup r).getD 0

/-- The flat cell index `(leftClass-1) * rightCount + (rightClass-1)` of
a pair (lines 468-470). -/
def kernCell (m : KernMap) (p : (Nat × Nat) × Int) : Nat :=
  (leftClassOf m p.1.1 - 1) * kern_right_class_count m +
    (rightClassOf m p.1.2 - 1)

/-- The flat class-by-class matrix build (lines 466-470): start from a
zero matrix of `leftCount * rightCount` cells and write every pair's
adjustment at its cell, in map order. -/
def kern_matrix (m : KernMap) : List Int :=
  m.foldl (fun mat p => mat.set (kernCell m p) p.2)
    (List.replicate (kern_left_class_count m * kern_right_class_count m) 0)

/-- The first-seen profile list of the left traversal. -/
def leftProfiles (m : KernMap) : List (List Int) :=
  firstSeen ((sorted_left_cps m).map (leftProfile m))

def rightProfiles (m : KernMap) : List (List Int) :=
  firstSeen ((sorted_right_cps m).map (rightProfile m))

theorem left_class_map_eq (m : KernMap) :
    left_class_map m = (sorted_left_cps m).map (fun cp =>
      (cp, (leftProfiles m).indexOf (leftProfile m cp) + 1)) :=
  (classLoop_spec (leftProfile m) (sorted_left_cps m) [] []
    (fun p => by simp)).1

theorem right_class_map_eq (m : KernMap) :
    right_class_map m = (sorted_right_cps m).map (fun cp =>
      (cp, (rightProfiles m).indexOf (rightProfile m cp) + 1)) :=
  (classLoop_spec (rightProfile m) (sorted_right_cps m) [] []
    (fun p => by simp)).1

theorem kern_left_class_count_eq (m : KernMap) :
    kern_left_class_count m = (leftProfiles m).length := by
  have h := (classLoop_spec (leftProfile m) (sorted_left_cps m) [] []
    (fun p => by simp)).2
  rw [kern_left_class_count, left_class_assignment]
  rw [show (classLoop (leftProfile m) (sorted_left_cps m) [] 1).2.2 =
    (leftProfiles m).length + 1 from h]
  omega

theorem kern_right_class_count_eq (m : KernMap) :
    kern_right_class_count m = (rightProfiles m).length := by
  have h := (classLoop_spec (rightProfile m) (sorted_right_cps m) [] []
    (fun p => by simp)).2
  rw [kern_right_class_count, right_class_assignment]
  rw [show (classLoop (rightProfile m) (sorted_right_cps m) [] 1).2.2 =
    (rightProfiles m).length + 1 from h]
  omega

theorem lookup_map_self {β : Type} (f : Nat → β) :
    ∀ (cps : List Nat), cps.Nodup → ∀ cp ∈ cps,
      (cps.map (fun c => (c, f c))).lookup cp = some (f cp) := by
  intro cps
  induction cps with
  | nil =>
    intro _ cp h
    cases h
  | cons a l ih =>
    intro hnd cp hcp
    rcases List.nodup_cons.mp hnd with ⟨ha, hl⟩
    simp only [List.map_cons, List.lookup_cons]
    rcases List.mem_cons.mp hcp with rfl | hcp2
    · rw [beq_self_eq_true]
    · have hne : (cp == a) = false :=
        beq_false_of_ne (fun heq => ha (heq ▸ hcp2))
      rw [hne]
      exact ih hl cp hcp2

theorem sorted_left_nodup (m : KernMap) : (sorted_left_cps m).Nodup :=
  ((List.perm_insertionSort _ _).nodup_iff).mpr (List.nodup_dedup _)

theorem sorted_right_nodup (m : KernMap) : (sorted_right_cps m).Nodup :=
  ((List.perm_insertionSort _ _).nodup_iff).mpr (List.nodup_dedup _)

theorem mem_sorted_left {m : KernMap} {l : Nat} :
    l ∈ sorted_left_cps m ↔ ∃ p ∈ m, p.1.1 = l := by
  rw [sorted_left_cps, (List.perm_insertionSort _ _).mem_iff, List.mem_dedup,
    List.mem_map]

theorem mem_sorted_right {m : KernMap} {r : Nat} :
    r ∈ sorted_right_cps m ↔ ∃ p ∈ m, p.1.2 = r := by
  rw [sorted_right_cps, (List.perm_insertionSort _ _).mem_iff, List.mem_dedup,
    List.mem_map]

theorem leftClassOf_eq (m : KernMap) {l : Nat} (hl : l ∈ sorted_left_cps m) :
    leftClassOf m l = (leftProfiles m).indexOf (leftProfile m l) + 1 := by
  rw [leftClassOf, left_class_map_eq,
    lookup_map_self _ _ (sorted_left_nodup m) l hl]
  rfl

theorem rightClassOf_eq (m : KernMap) {r : Nat} (hr : r ∈ sorted_right_cps m) :
    rightClassOf m r = (rightProfiles m).indexOf (rightProfile m r) + 1 := by
  rw [rightClassOf, right_class_map_eq,
    lookup_map_self _ _ (sorted_right_nodup m) r hr]
  rfl

theorem leftClassOf_bounds (m : KernMap) {l : Nat} (hl : l ∈ sorted_left_cps m) :
    1 ≤ leftClassOf m l ∧ leftClassOf m l ≤ kern_left_class_count m := by
  rw [leftClassOf_eq m hl, kern_left_class_count_eq]
  have hmem : leftProfile m l ∈ leftProfiles m :=
    mem_firstSeen.mpr (List.mem_map.mpr ⟨l, hl, rfl⟩)
  have := indexOf_lt_of_mem _ _ hmem
  omega

theorem rightClassOf_bounds (m : KernMap) {r : Nat} (hr : r ∈ sorted_right_cps m) :
    1 ≤ rightClassOf m r ∧ rightClassOf m r ≤ kern_right_class_count m := by
  rw [rightClassOf_eq m hr, kern_right_class_count_eq]
  have hmem : rightProfile m r ∈ rightProfiles m :=
    mem_firstSeen.mpr (List.mem_map.mpr ⟨r, hr, rfl⟩)
  have := indexOf_lt_of_mem _ _ hmem
  omega

theorem leftClassOf_iff_profile (m : KernMap) {l1 l2 : Nat}
    (h1 : l1 ∈ sorted_left_cps m) (h2 : l2 ∈ sorted_left_cps m) :
    leftClassOf m l1 = leftClassOf m l2 ↔ leftProfile m l1 = leftProfile m l2 := by
  rw [leftClassOf_eq m h1, leftClassOf_eq m h2]
  constructor
  · intro h
    exact eq_of_indexOf_eq (leftProfiles m) _ _
      (mem_firstSeen.mpr (List.mem_map.mpr ⟨l1, h1, rfl⟩))
      (mem_firstSeen.mpr (List.mem_map.mpr ⟨l2, h2, rfl⟩)) (by omega)
  · intro h
    rw [h]

theorem rightClassOf_iff_profile (m : KernMap) {r1 r2 : Nat}
    (h1 : r1 ∈ sorted_right_cps m) (h2 : r2 ∈ sorted_right_cps m) :
    rightClassOf m r1 = rightClassOf m r2 ↔
      rightProfile m r1 = rightProfile m r2 := by
  rw [rightClassOf_eq m h1, rightClassOf_eq m h2]
  constructor
  · intro h
    exact eq_of_indexOf_eq (rightProfiles m) _ _
      (mem_firstSeen.mpr (List.mem_map.mpr ⟨r1, h1, rfl⟩))
      (mem_firstSeen.mpr (List.mem_map.mpr ⟨r2, h2, rfl⟩)) (by omega)
  · intro h
    rw [h]

theorem lookup_of_mem_nodup :
    ∀ (m : KernMap), (m.map Prod.fst).Nodup → ∀ p ∈ m, m.lookup p.1 = some p.2 := by
  intro m
  induction m with
  | nil =>
    intro _ p h
    cases h
  | cons q m ih =>
    intro hnd p hp
    rw [List.map_cons] at hnd
    rcases List.nodup_cons.mp hnd with ⟨hq, hm⟩
    obtain ⟨qk, qv⟩ := q
    rw [List.lookup_cons]
    rcases List.mem_cons.mp hp with rfl | hp2
    · rw [beq_self_eq_true]
    · have hne : (p.1 == qk) = false := beq_false_of_ne (by
        intro heq
        exact hq (heq ▸ List.mem_map.mpr ⟨p, hp2, rfl⟩))
      rw [hne]
      exact ih hm p hp2

theorem mem_of_lookup_some :
    ∀ (m : KernMap) (k : Nat × Nat) (v : Int), m.lookup k = some v → (k, v) ∈ m := by
  intro m
  induction m with
  | nil =>
    intro k v h
    cases h
  | cons q m ih =>
    intro k v h
    obtain ⟨qk, qv⟩ := q
    rw [List.lookup_cons] at h
    cases hbeq : k == qk
    · rw [hbeq] at h
      exact List.mem_cons_of_mem _ (ih k v h)
    · rw [hbeq] at h
      rcases Option.some.inj h with rfl
      rcases eq_of_beq hbeq with rfl
      exact List.mem_cons_self _ _

theorem kmLookup_of_mem {m : KernMap} (hkeys : (m.map Prod.fst).Nodup)
    {p : (Nat × Nat) × Int} (hp : p ∈ m) : kmLookup m p.1.1 p.1.2 = p.2 := by
  rw [kmLookup]
  have h := lookup_of_mem_nodup m hkeys p hp
  rw [show ((p.1.1, p.1.2) : Nat × Nat) = p.1 from rfl, h]
  rfl

theorem foldl_set_length (f : (Nat × Nat) × Int → Nat) :
    ∀ (pairs : KernMap) (mat : List Int),
      (pairs.foldl (fun acc p => acc.set (f p) p.2) mat).length = mat.length := by
  intro pairs
  induction pairs with
  | nil => intro mat; rfl
  | cons p pairs ih =>
    intro mat
    rw [List.foldl_cons, ih, List.length_set]

theorem foldl_set_untouched (f : (Nat × Nat) × Int → Nat) :
    ∀ (pairs : KernMap) (mat : List Int) (c : Nat),
      (∀ p ∈ pairs, f p ≠ c) →
      (pairs.foldl (fun acc p => acc.set (f p) p.2) mat).getD c 0 = mat.getD c 0 := by
  intro pairs
  induction pairs with
  | nil => intro mat c _; rfl
  | cons p pairs ih =>
    intro mat c hne
    rw [List.foldl_cons, ih _ c (fun q hq => hne q (List.mem_cons_of_mem _ hq)),
      List.getD_eq_getElem?_getD, List.getD_eq_getElem?_getD,
      List.getElem?_set_ne (hne p (List.mem_cons_self _ _))]

theorem foldl_set_last (f : (Nat × Nat) × Int → Nat) :
    ∀ (pairs : KernMap) (mat : List Int) (c : Nat) (v : Int),
      (∀ p ∈ pairs, f p = c → p.2 = v) →
      (∃ p ∈ pairs, f p = c) →
      c < mat.length →
      (pairs.foldl (fun acc p => acc.set (f p) p.2) mat).getD c 0 = v := by
  intro pairs
  induction pairs with
  | nil =>
    intro mat c v _ hex _
    rcases hex with ⟨p, hp, _⟩
    cases hp
  | cons p pairs ih =>
    intro mat c v hval hex hc
    rw [List.foldl_cons]
    by_cases hrest : ∃ q ∈ pairs, f q = c
    · exact ih _ c v (fun q hq => hval q (List.mem_cons_of_mem _ hq)) hrest
        (by rw [List.length_set]; exact hc)
    · have hpc : f p = c := by
        rcases hex with ⟨q, hq, hqc⟩
        rcases List.mem_cons.mp hq with rfl | hq2
        · exact hqc
        · exact absurd ⟨q, hq2, hqc⟩ hrest
      rw [foldl_set_untouched f pairs _ c (fun q hq hqc => hrest ⟨q, hq, hqc⟩),
        List.getD_eq_getElem?_getD, hpc, List.getElem?_set_self hc]
      exact hval p (List.mem_cons_self _ _) hpc

theorem cell_inj {Rc a b c d : Nat} (hRc : 0 < Rc) (hb : b < Rc) (hd : d < Rc)
    (h : a * Rc + b = c * Rc + d) : a = c ∧ b = d := by
  have h1 : (a * Rc + b) / Rc = a := by
    rw [Nat.mul_comm a Rc, Nat.mul_add_div hRc, Nat.div_eq_of_lt hb]
    omega
  have h2 : (c * Rc + d) / Rc = c := by
    rw [Nat.mul_comm c Rc, Nat.mul_add_div hRc, Nat.div_eq_of_lt hd]
    omega
  have ha : a = c := by rw [← h1, h, h2]
  refine ⟨ha, ?_⟩
  rw [ha] at h
  omega

theorem cell_lt {Lc Rc lc rc : Nat} (hl1 : 1 ≤ lc) (hl2 : lc ≤ Lc)
    (hr1 : 1 ≤ rc) (hr2 : rc ≤ Rc) :
    (lc - 1) * Rc + (rc - 1) < Lc * Rc := by
  have h1 : ((lc - 1) + 1) * Rc ≤ Lc * Rc := Nat.mul_le_mul_right Rc (by omega)
  have h2 : ((lc - 1) + 1) * Rc = (lc - 1) * Rc + Rc := by ring
  omega

/-- The matrix cell of `(l, r)` holds exactly `kern_map.get((l,r), 0)`:
every pair writing to that cell has the same left and right class, hence
(by profile equality twice) the same value, and if no surviving pair has
that class combination the cell keeps its zero initialisation. -/
theorem kern_matrix_cell (m : KernMap) (hkeys : (m.map Prod.fst).Nodup)
    (hnz : ∀ p ∈ m, p.2 ≠ 0) {l r : Nat}
    (hl : l ∈ sorted_left_cps m) (hr : r ∈ sorted_right_cps m) :
    (kern_matrix m).getD ((leftClassOf m l - 1) * kern_right_class_count m +
      (rightClassOf m r - 1)) 0 = kmLookup m l r := by
  have hRc : 0 < kern_right_class_count m := by
    have := rightClassOf_bounds m hr
    omega
  have hlb := leftClassOf_bounds m hl
  have hrb := rightClassOf_bounds m hr
  have hcons : ∀ p ∈ m,
      kernCell m p =
        (leftClassOf m l - 1) * kern_right_class_count m +
          (rightClassOf m r - 1) →
      p.2 = kmLookup m l r := by
    intro p hp hcell
    have hpl : p.1.1 ∈ sorted_left_cps m := mem_sorted_left.mpr ⟨p, hp, rfl⟩
    have hpr : p.1.2 ∈ sorted_right_cps m := mem_sorted_right.mpr ⟨p, hp, rfl⟩
    have hplb := leftClassOf_bounds m hpl
    have hprb := rightClassOf_bounds m hpr
    rw [kernCell] at hcell
    have hinj := cell_inj hRc (by omega) (by omega) hcell
    have hlc : leftClassOf m p.1.1 = leftClassOf m l := by omega
    have hrc : rightClassOf m p.1.2 = rightClassOf m r := by omega
    have hlp := (leftClassOf_iff_profile m hpl hl).mp hlc
    have hrp := (rightClassOf_iff_profile m hpr hr).mp hrc
    rw [leftProfile, leftProfile] at hlp
    rw [rightProfile, rightProfile] at hrp
    have h1 : kmLookup m p.1.1 p.1.2 = kmLookup m l p.1.2 :=
      List.map_eq_map_iff.mp hlp p.1.2 hpr
    have h2 : kmLookup m l p.1.2 = kmLookup m l r :=
      List.map_eq_map_iff.mp hrp l hl
    calc p.2 = kmLookup m p.1.1 p.1.2 := (kmLookup_of_mem hkeys hp).symm
      _ = kmLookup m l p.1.2 := h1
      _ = kmLookup m l r := h2
  rcases hml : m.lookup (l, r) with _ | v
  · have hklr : kmLookup m l r = 0 := by rw [kmLookup, hml]; rfl
    rw [hklr, kern_matrix]
    rw [foldl_set_untouched (kernCell m) m _ _ (by
      intro p hp hcell
      have hval := hcons p hp hcell
      rw [hklr] at hval
      exact hnz p hp hval)]
    rw [List.getD_eq_getElem?_getD, List.getElem?_replicate]
    split <;> rfl
  · have hmem : ((l, r), v) ∈ m := mem_of_lookup_some m (l, r) v hml
    rw [kern_matrix]
    exact foldl_set_last (kernCell m) m _ _ (kmLookup m l r) hcons
      ⟨((l, r), v), hmem, by rw [kernCell]⟩
      (by rw [List.length_replicate]; exact cell_lt hlb.1 hlb.2 hrb.1 hrb.2)

/-- C1: kerning class soundness.  For every pair of the final map the
matrix holds its adjustment at `(leftClass-1) * rightClassCount +
(rightClass-1)`; two left codepoints with the same left class have equal
adjustments against every surviving right codepoint (missing pairs are
0); two left codepoints share a class id exactly when their full row
profiles are identical; and class ids are handed out in first-seen order
starting at 1 over the codepoint-sorted traversal (the id is the index
of the profile in the first-seen profile list, plus 1). -/
theorem kerning_class_soundness (m : KernMap)
    (hkeys : (m.map Prod.fst).Nodup) (hnz : ∀ p ∈ m, p.2 ≠ 0) :
    (∀ p ∈ m, p.2 ≠ 0 →
      (kern_matrix m).getD ((leftClassOf m p.1.1 - 1) * kern_right_class_count m +
        (rightClassOf m p.1.2 - 1)) 0 = p.2) ∧
    (∀ l1 ∈ sorted_left_cps m, ∀ l2 ∈ sorted_left_cps m,
      leftClassOf m l1 = leftClassOf m l2 →
      ∀ r ∈ sorted_right_cps m, kmLookup m l1 r = kmLookup m l2 r) ∧
    (∀ l1 ∈ sorted_left_cps m, ∀ l2 ∈ sorted_left_cps m,
      (leftClassOf m l1 = leftClassOf m l2 ↔
        leftProfile m l1 = leftProfile m l2)) ∧
    (∀ l ∈ sorted_left_cps m,
      leftClassOf m l = (leftProfiles m).indexOf (leftProfile m l) + 1) := by
  refine ⟨?_, ?_, ?_, ?_⟩
  · intro p hp _
    have hl : p.1.1 ∈ sorted_left_cps m := mem_sorted_left.mpr ⟨p, hp, rfl⟩
    have hr : p.1.2 ∈ sorted_right_cps m := mem_sorted_right.mpr ⟨p, hp, rfl⟩
    rw [kern_matrix_cell m hkeys hnz hl hr]
    exact kmLookup_of_mem hkeys hp
  · intro l1 h1 l2 h2 hc r hrr
    have hprof := (leftClassOf_iff_profile m h1 h2).mp hc
    rw [leftProfile, leftProfile] at hprof
    exact List.map_eq_map_iff.mp hprof r hrr
  · intro l1 h1 l2 h2
    exact leftClassOf_iff_profile m h1 h2
  · intro l hl
    exact leftClassOf_eq m hl

/-- Fixture for the C1 witness: the spec's concrete scenario, where
`A` (0x41) and `À` (0xC0) kern identically against `V` (0x56) and
`W` (0x57). -/
def kernW : KernMap :=
  [((0x41, 0x56), -2), ((0x41, 0x57), -3), ((0xC0, 0x56), -2), ((0xC0, 0x57), -3)]

/-- Witness for C1: in the fixture, the matrix cell of the pair
`(A, V)` holds -2, `A` and `À` share a left class, and class ids start
at 1. -/
theorem kerning_class_soundness_witness :
    (kern_matrix kernW).getD
      ((leftClassOf kernW 0x41 - 1) * kern_right_class_count kernW +
        (rightClassOf kernW 0x56 - 1)) 0 = -2 ∧
    leftClassOf kernW 0x41 = leftClassOf kernW 0xC0 :=
  ⟨(kerning_class_soundness kernW (by decide) (by decide)).1
      ((0x41, 0x56), -2) (by decide) (by decide),
   by decide⟩

/-- C9: total kerning lookup exactness.  For any left codepoint and any
right codepoint that each appear in some surviving pair, the class
matrix lookup returns the extracted adjustment when the pair exists and
0 when it does not: the lookup is exact over the whole cross product. -/
theorem kerning_lookup_exact (m : KernMap)
    (hkeys : (m.map Prod.fst).Nodup) (hnz : ∀ p ∈ m, p.2 ≠ 0)
    (l r : Nat) (hl : l ∈ sorted_left_cps m) (hr : r ∈ sorted_right_cps m) :
    (∀ v : Int, m.lookup (l, r) = some v →
      (kern_matrix m).getD ((leftClassOf m l - 1) * kern_right_class_count m +
        (rightClassOf m r - 1)) 0 = v) ∧
    (m.lookup (l, r) = none →
      (kern_matrix m).getD ((leftClassOf m l - 1) * kern_right_class_count m +
        (rightClassOf m r - 1)) 0 = 0) := by
  constructor
  · intro v hv
    rw [kern_matrix_cell m hkeys hnz hl hr, kmLookup, hv]
    rfl
  · intro hv
    rw [kern_matrix_cell m hkeys hnz hl hr, kmLookup, hv]
    rfl

/-- Fixture for the C9 witness: left codepoints 65 and 192, right
codepoints 86 and 87, with the cross pairs (65,87) and (192,86)
missing. -/
def kernW2 : KernMap := [((65, 86), -2), ((192, 87), -3)]

/-- Witness for C9: in the fixture the matrix returns -2 for the
existing pair (65,86) and 0 for the missing cross pair (65,87). -/
theorem kerning_lookup_exact_witness :
    (kern_matrix kernW2).getD
      ((leftClassOf kernW2 65 - 1) * kern_right_class_count kernW2 +
        (rightClassOf kernW2 86 - 1)) 0 = -2 ∧
    (kern_matrix kernW2).getD
      ((leftClassOf kernW2 65 - 1) * kern_right_class_count kernW2 +
        (rightClassOf kernW2 87 - 1)) 0 = 0 :=
  ⟨(kerning_lookup_exact kernW2 (by decide) (by decide) 65 86 (by decide)
      (by decide)).1 (-2) (by decide),
   (kerning_lookup_exact kernW2 (by decide) (by decide) 65 87 (by decide)
      (by decide)).2 (by decide)⟩

/-! ## Multi-font kerning union (fontconvert.py lines 293-305, 414-417) -/

/-- Python dict assignment `d[k] = v` on an association list: the first
binding of `k` is replaced in place, a new key is appended at the end
(insertion order). -/
def dictSet : KernMap → Nat × Nat → Int → KernMap
  | [], k, v => [(k, v)]
  | q :: m, k, v => if q.1 == k then (k, v) :: m else q :: dictSet m k v

/-- `kern_map.update(pass)` (line 417): assign every binding of the pass
into the accumulated dict, in pass order. -/
def dictUpdate (m upd : KernMap) : KernMap :=
  upd.foldl (fun acc kv => dictSet acc kv.1 kv.2) m

/-- The union loop of lines 414-417: fold the per-font extraction passes
into one map, starting from the empty dict. -/
def kern_map_union (passes : List KernMap) : KernMap :=
  passes.foldl dictUpdate []

/-- `face_idx_cps[fi]` (lines 302-305): the codepoints assigned to font
`fi` by the first-match priority map `cp_to_face_idx`. -/
def face_idx_cps (cpToFace : List (Nat × Nat)) (fi : Nat) : List Nat :=
  (cpToFace.filter (fun q => q.2 == fi)).map Prod.fst

/-- Codepoint groups of distinct fonts are disjoint, because each
codepoint is assigned to exactly one font. -/
theorem face_idx_cps_disjoint (cpToFace : List (Nat × Nat))
    (hnd : (cpToFace.map Prod.fst).Nodup) {i j : Nat} (hij : i ≠ j) :
    ∀ c ∈ face_idx_cps cpToFace i, c ∉ face_idx_cps cpToFace j := by
  intro c hci hcj
  rw [face_idx_cps, List.mem_map] at hci hcj
  rcases hci with ⟨qi, hqi, hqi1⟩
  rcases hcj with ⟨qj, hqj, hqj1⟩
  rcases List.mem_filter.mp hqi with ⟨hqim, hqi2⟩
  rcases List.mem_filter.mp hqj with ⟨hqjm, hqj2⟩
  have hii : qi.2 = i := eq_of_beq hqi2
  have hjj : qj.2 = j := eq_of_beq hqj2
  have heq : qi = qj :=
    List.inj_on_of_nodup_map hnd hqim hqjm (by rw [hqi1, hqj1])
  exact hij (by rw [← hii, heq, hjj])

theorem dictSet_lookup_self (k : Nat × Nat) (v : Int) :
    ∀ m : KernMap, (dictSet m k v).lookup k = some v := by
  intro m
  induction m with
  | nil =>
    rw [dictSet, List.lookup_cons, beq_self_eq_true]
  | cons q m ih =>
    rw [dictSet]
    by_cases hq : q.1 == k
    · rw [if_pos hq, List.lookup_cons, beq_self_eq_true]
    · rw [if_neg hq, List.lookup_cons]
      have hq2 : (k == q.1) = false := by
        cases hkq : k == q.1
        · rfl
        · exact absurd (by rw [eq_of_beq hkq]; exact beq_self_eq_true q.1) hq
      rw [hq2]
      exact ih

theorem dictSet_lookup_ne (k k2 : Nat × Nat) (v : Int) (hne : k2 ≠ k) :
    ∀ m : KernMap, (dictSet m k v).lookup k2 = m.lookup k2 := by
  intro m
  induction m with
  | nil =>
    rw [dictSet, List.lookup_cons, beq_false_of_ne hne]
  | cons q m ih =>
    rw [dictSet]
    by_cases hq : q.1 == k
    · rw [if_pos hq, List.lookup_cons, List.lookup_cons, beq_false_of_ne hne]
      have hq2 : (k2 == q.1) = false :=
        beq_false_of_ne (by rw [eq_of_beq hq]; exact hne)
      rw [hq2]
    · rw [if_neg hq, List.lookup_cons, List.lookup_cons]
      cases hkq : k2 == q.1
      · exact ih
      · rfl

theorem dictUpdate_lookup_not_mem (k : Nat × Nat) :
    ∀ (upd m : KernMap), k ∉ upd.map Prod.fst →
      (dictUpdate m upd).lookup k = m.lookup k := by
  intro upd
  induction upd with
  | nil =>
    intro m _
    rfl
  | cons kv upd ih =>
    intro m hk
    rw [dictUpdate, List.foldl_cons]
    rw [show List.foldl (fun acc kv => dictSet acc kv.1 kv.2)
      (dictSet m kv.1 kv.2) upd = dictUpdate (dictSet m kv.1 kv.2) upd from rfl]
    rw [ih _ (fun h => hk (List.mem_cons_of_mem _ h)),
      dictSet_lookup_ne _ _ _ (fun h => hk (by
        rw [h]
        exact List.mem_map.mpr ⟨kv, List.mem_cons_self _ _, rfl⟩))]

theorem dictUpdate_lookup_mem :
    ∀ (upd m : KernMap), (upd.map Prod.fst).Nodup →
      ∀ p ∈ upd, (dictUpdate m upd).lookup p.1 = some p.2 := by
  intro upd
  induction upd with
  | nil =>
    intro m _ p hp
    cases hp
  | cons kv upd ih =>
    intro m hnd p hp
    rw [List.map_cons] at hnd
    rcases List.nodup_cons.mp hnd with ⟨hk, hnd2⟩
    rw [dictUpdate, List.foldl_cons]
    rw [show List.foldl (fun acc kv => dictSet acc kv.1 kv.2)
      (dictSet m kv.1 kv.2) upd = dictUpdate (dictSet m kv.1 kv.2) upd from rfl]
    rcases List.mem_cons.mp hp with rfl | hp2
    · rw [dictUpdate_lookup_not_mem _ _ _ hk, dictSet_lookup_self]
    · exact ih _ hnd2 p hp2

theorem foldl_update_lookup_not_mem (k : Nat × Nat) :
    ∀ (passes : List KernMap) (m : KernMap),
      (∀ pass ∈ passes, k ∉ pass.map Prod.fst) →
      (passes.foldl dictUpdate m).lookup k = m.lookup k := by
  intro passes
  induction passes with
  | nil =>
    intro m _
    rfl
  | cons pass passes ih =>
    intro m hk
    rw [List.foldl_cons, ih _ (fun q hq => hk q (List.mem_cons_of_mem _ hq)),
      dictUpdate_lookup_not_mem _ _ _ (hk pass (List.mem_cons_self _ _))]

/-- C4: multi-font kerning union, first-assignment wins.  The per-font
passes have pairwise-disjoint codepoint domains (each codepoint is
served by exactly one font) and every pair key of a pass has both
components in that pass's domain, so no later pass can mention a key an
earlier pass produced: every pass's binding survives into the final
map unchanged. -/
theorem forall2_mem_left {R : KernMap → List Nat → Prop} :
    ∀ {l1 : List KernMap} {l2 : List (List Nat)}, List.Forall₂ R l1 l2 →
      ∀ a ∈ l1, ∃ b ∈ l2, R a b := by
  intro l1 l2 hf
  induction hf with
  | nil =>
    intro a ha
    cases ha
  | cons hr _ ih =>
    intro a ha
    rcases List.mem_cons.mp ha with rfl | ha2
    · exact ⟨_, List.mem_cons_self _ _, hr⟩
    · rcases ih a ha2 with ⟨b, hb, hrb⟩
      exact ⟨b, List.mem_cons_of_mem _ hb, hrb⟩

theorem kern_map_first_wins (passes : List KernMap) (doms : List (List Nat))
    (hzip : List.Forall₂ (fun pass dom =>
      (∀ p ∈ pass, p.1.1 ∈ dom ∧ p.1.2 ∈ dom) ∧
        (pass.map Prod.fst).Nodup) passes doms)
    (hdisj : List.Pairwise (fun d1 d2 => ∀ c ∈ d1, c ∉ d2) doms) :
    ∀ pass ∈ passes, ∀ p ∈ pass,
      (kern_map_union passes).lookup p.1 = some p.2 := by
  rw [kern_map_union]
  generalize ([] : KernMap) = m
  revert hdisj m
  induction hzip with
  | nil =>
    intro _ m pass hpass
    cases hpass
  | @cons passh domh passt domt hpd hzip2 ih =>
    intro hdisj m pass hpass p hp
    rcases List.pairwise_cons.mp hdisj with ⟨hdh, hdt⟩
    rw [List.foldl_cons]
    rcases List.mem_cons.mp hpass with rfl | hpass2
    · rw [foldl_update_lookup_not_mem p.1 _ _ (by
        intro pass2 hpass2 hkmem
        rcases List.mem_map.mp hkmem with ⟨q, hq, hq1⟩
        rcases forall2_mem_left hzip2 pass2 hpass2 with ⟨dom2, hdom2, hprop2, -⟩
        have hq11 : q.1.1 ∈ dom2 := (hprop2 q hq).1
        have hp11 : p.1.1 ∈ domh := (hpd.1 p hp).1
        rw [hq1] at hq11
        exact hdh dom2 hdom2 p.1.1 hp11 hq11)]
      exact dictUpdate_lookup_mem pass m hpd.2 p hp
    · exact ih hdt (dictUpdate m passh) pass hpass2 p hp

theorem kern_map_first_wins_witness :
    (kern_map_union [[(((1 : Nat), (2 : Nat)), (5 : Int))],
      [(((3 : Nat), (4 : Nat)), (7 : Int))]]).lookup (1, 2) = some 5 :=
  kern_map_first_wins
    [[(((1 : Nat), (2 : Nat)), (5 : Int))], [(((3 : Nat), (4 : Nat)), (7 : Int))]]
    [[1, 2], [3, 4]]
    (List.Forall₂.cons (by decide) (List.Forall₂.cons (by decide) List.Forall₂.nil))
    (by decide)
    [(((1 : Nat), (2 : Nat)), (5 : Int))] (by decide)
    (((1 : Nat), (2 : Nat)), (5 : Int)) (by decide)

/-! ### Script-based grouping (compression mode) -/

/-- The fixed Unicode block-range table from fontconvert.py lines 658-671. -/
def SCRIPT_GROUP_RANGES : List (Nat × Nat) :=
  [(0x0000, 0x007F), (0x0080, 0x00FF), (0x0100, 0x017F), (0x0300, 0x036F),
   (0x0400, 0x04FF), (0x2000, 0x206F), (0x2070, 0x209F), (0x20A0, 0x20CF),
   (0x2190, 0x21FF), (0x2200, 0x22FF), (0xFB00, 0xFB06), (0xFFFD, 0xFFFD)]

def get_script_group_aux : List (Nat × Nat) → Nat → Nat → Int
  | [], _, _ => -1
  | r :: rest, i, cp =>
      if r.1 ≤ cp ∧ cp ≤ r.2 then (i : Int) else get_script_group_aux rest (i + 1) cp

/-- `get_script_group` (lines 673-677): index of the first containing range,
else the catch-all id -1. -/
def get_script_group (cp : Nat) : Int :=
  get_script_group_aux SCRIPT_GROUP_RANGES 0 cp

/-- The grouping loop of lines 679-696: run-length encode the per-glyph
script-group ids into (first_glyph_index, glyph_count) entries. -/
def groupsLoop : List Nat → Nat → Option Int → Nat → Nat → List (Nat × Nat) →
    List (Nat × Nat)
  | [], _, _, gs, gc, acc => if 0 < gc then acc ++ [(gs, gc)] else acc
  | cp :: rest, i, cur, gs, gc, acc =>
      let sg := get_script_group cp
      if some sg ≠ cur then
        groupsLoop rest (i + 1) (some sg) i 1 (if 0 < gc then acc ++ [(gs, gc)] else acc)
      else
        groupsLoop rest (i + 1) cur gs (gc + 1) acc

def groups (cps : List Nat) : List (Nat × Nat) :=
  groupsLoop cps 0 none 0 0 []

/-- `Tiles s t l`: the (start, count) entries of `l` tile the index interval
[s, t) in order, with no gaps, no overlaps and no empty entry. -/
def Tiles (s t : Nat) : List (Nat × Nat) → Prop
  | [] => s = t
  | g :: rest => g.1 = s ∧ 0 < g.2 ∧ Tiles (s + g.2) t rest

def decTiles : (l : List (Nat × Nat)) → (s t : Nat) → Decidable (Tiles s t l)
  | [], s, t => decidable_of_iff (s = t) Iff.rfl
  | g :: rest, s, t =>
      have : Decidable (Tiles (s + g.2) t rest) := decTiles rest (s + g.2) t
      decidable_of_iff (g.1 = s ∧ 0 < g.2 ∧ Tiles (s + g.2) t rest) Iff.rfl

instance (s t : Nat) (l : List (Nat × Nat)) : Decidable (Tiles s t l) :=
  decTiles l s t

theorem tiles_append : ∀ (acc : List (Nat × Nat)) (s m t : Nat)
    (l : List (Nat × Nat)), Tiles s m acc → Tiles m t l → Tiles s t (acc ++ l) := by
  intro acc
  induction acc with
  | nil =>
    intro s m t l h1 h2
    rw [Tiles] at h1
    rw [List.nil_append, h1]
    exact h2
  | cons g rest ih =>
    intro s m t l h1 h2
    rw [Tiles] at h1
    rcases h1 with ⟨hg, hpos, htl⟩
    exact ⟨hg, hpos, ih _ _ _ _ htl h2⟩

theorem tiles_sum : ∀ (l : List (Nat × Nat)) (s t : Nat),
    Tiles s t l → s + (l.map Prod.snd).sum = t := by
  intro l
  induction l with
  | nil =>
    intro s t h
    rw [Tiles] at h
    simpa using h
  | cons g rest ih =>
    intro s t h
    rw [Tiles] at h
    rcases h with ⟨_, _, htl⟩
    have := ih _ _ htl
    simp only [List.map_cons, List.sum_cons]
    omega

/-- Script-group id of the glyph at index `j`. -/
def sgAt (cps : List Nat) (j : Nat) : Int :=
  get_script_group (cps.getD j 0)

/-- Index `j` begins a run of equal script-group ids. -/
def isStart (cps : List Nat) (j : Nat) : Prop :=
  j < cps.length ∧ (j = 0 ∨ sgAt cps j ≠ sgAt cps (j - 1))

theorem drop_cons_facts : ∀ (cps : List Nat) (i : Nat) (cp : Nat)
    (rest : List Nat), cps.drop i = cp :: rest →
      cps.getD i 0 = cp ∧ cps.drop (i + 1) = rest := by
  intro cps
  induction cps with
  | nil =>
    intro i cp rest h
    rw [List.drop_nil] at h
    cases h
  | cons a cps ih =>
    intro i cp rest h
    cases i with
    | zero =>
      rw [List.drop_zero] at h
      cases h
      exact ⟨rfl, rfl⟩
    | succ i =>
      rw [List.drop_succ_cons] at h
      rcases ih i cp rest h with ⟨h1, h2⟩
      refine ⟨h1, ?_⟩
      rw [List.drop_succ_cons]
      exact h2

theorem groupsLoop_run (cps : List Nat) :
    ∀ (rest : List Nat) (i gs gc : Nat) (sgv : Int) (acc : List (Nat × Nat)),
      cps.drop i = rest → gs + gc = i → 0 < gc → i ≤ cps.length →
      (∀ j, gs ≤ j → j < i → sgAt cps j = sgv) →
      (∀ j, (∃ g ∈ acc, g.1 = j) ↔ (isStart cps j ∧ j < gs)) →
      isStart cps gs → Tiles 0 gs acc →
      Tiles 0 cps.length (groupsLoop rest i (some sgv) gs gc acc) ∧
        (∀ j, (∃ g ∈ groupsLoop rest i (some sgv) gs gc acc, g.1 = j) ↔
          isStart cps j) := by
  intro rest
  induction rest generalizing cps with
  | nil =>
    intro i gs gc sgv acc hdrop hi hgc hin hseg hacc hsgs htiles
    have hlen : i = cps.length := by
      have := congrArg List.length hdrop
      rw [List.length_drop] at this
      simp at this
      omega
    rw [groupsLoop, if_pos hgc]
    constructor
    · refine tiles_append acc 0 gs cps.length [(gs, gc)] htiles ?_
      rw [Tiles]
      exact ⟨rfl, hgc, by rw [Tiles]; omega⟩
    · intro j
      constructor
      · rintro ⟨g, hg, rfl⟩
        rcases List.mem_append.mp hg with hg2 | hg2
        · exact ((hacc g.1).mp ⟨g, hg2, rfl⟩).1
        · rcases List.mem_singleton.mp hg2 with rfl
          exact hsgs
      · intro hj
        by_cases hlt : j < gs
        · rcases ((hacc j).mpr ⟨hj, hlt⟩) with ⟨g, hg, hgj⟩
          exact ⟨g, List.mem_append_left _ hg, hgj⟩
        · by_cases heq : j = gs
          · exact ⟨(gs, gc), List.mem_append_right _ (List.mem_singleton.mpr rfl),
              heq.symm⟩
          · exfalso
            have h1 : gs < j := by omega
            have h2 : j < i := by rw [hlen]; exact hj.1
            have h3 : sgAt cps j = sgv := hseg j (by omega) h2
            have h4 : sgAt cps (j - 1) = sgv := hseg (j - 1) (by omega) (by omega)
            rcases hj.2 with rfl | hne
            · omega
            · exact hne (by rw [h3, h4])
  | cons cp rest2 ih =>
    intro i gs gc sgv acc hdrop hi hgc hin hseg hacc hsgs htiles
    rcases drop_cons_facts cps i cp rest2 hdrop with ⟨hget, hdrop2⟩
    have hilen : i < cps.length := by
      have := congrArg List.length hdrop
      rw [List.length_drop] at this
      simp at this
      omega
    have hsgi : sgAt cps i = get_script_group cp := by rw [sgAt, hget]
    rw [groupsLoop]
    by_cases hne : some (get_script_group cp) ≠ some sgv
    · rw [if_pos hne, if_pos hgc]
      have hsgs2 : isStart cps i := by
        refine ⟨hilen, Or.inr ?_⟩
        have h4 : sgAt cps (i - 1) = sgv := hseg (i - 1) (by omega) (by omega)
        rw [hsgi, h4]
        intro h
        exact hne (by rw [h])
      refine ih cps (i + 1) i 1 (get_script_group cp) _ hdrop2 rfl (by omega)
        (by omega) ?_ ?_ hsgs2 ?_
      · intro j hj1 hj2
        have : j = i := by omega
        rw [this, hsgi]
      · intro j
        constructor
        · rintro ⟨g, hg, rfl⟩
          rcases List.mem_append.mp hg with hg2 | hg2
          · have := (hacc g.1).mp ⟨g, hg2, rfl⟩
            exact ⟨this.1, by omega⟩
          · rcases List.mem_singleton.mp hg2 with rfl
            exact ⟨hsgs, by omega⟩
        · intro hj
          by_cases hlt : j < gs
          · rcases ((hacc j).mpr ⟨hj.1, hlt⟩) with ⟨g, hg, hgj⟩
            exact ⟨g, List.mem_append_left _ hg, hgj⟩
          · by_cases heq : j = gs
            · exact ⟨(gs, gc), List.mem_append_right _ (List.mem_singleton.mpr rfl),
                heq.symm⟩
            · exfalso
              have h1 : gs < j := by omega
              have h2 : j < i := by omega
              have h3 : sgAt cps j = sgv := hseg j (by omega) h2
              have h4 : sgAt cps (j - 1) = sgv := hseg (j - 1) (by omega) (by omega)
              rcases hj.1.2 with rfl | hne2
              · omega
              · exact hne2 (by rw [h3, h4])
      · refine tiles_append acc 0 gs i [(gs, gc)] htiles ?_
        rw [Tiles]
        exact ⟨rfl, hgc, by rw [Tiles]; omega⟩
    · rw [if_neg hne]
      have hsg : get_script_group cp = sgv := by
        by_contra h
        exact hne (by intro h2; exact h (Option.some.inj h2))
      refine ih cps (i + 1) gs (gc + 1) sgv acc hdrop2 (by omega) (by omega)
        (by omega) ?_ hacc hsgs htiles
      intro j hj1 hj2
      by_cases hji : j = i
      · rw [hji, hsgi, hsg]
      · exact hseg j hj1 (by omega)

/-- C8: group partition law.  In compression mode the Groups table built by
the run-length loop tiles the glyph index range [0, n) exactly (no gaps, no
overlaps, counts positive), the counts sum to n, and an index is the first
member of a group exactly when it is 0 or its script-group id differs from
the previous glyph's id. -/
theorem group_partition (cps : List Nat) :
    Tiles 0 cps.length (groups cps) ∧
      ((groups cps).map Prod.snd).sum = cps.length ∧
      (∀ j, (∃ g ∈ groups cps, g.1 = j) ↔ isStart cps j) := by
  cases cps with
  | nil =>
    refine ⟨by rw [groups, groupsLoop]; simp [Tiles], by rw [groups, groupsLoop]; simp, ?_⟩
    intro j
    rw [groups, groupsLoop]
    simp [isStart]
  | cons cp rest =>
    have h1 : groups (cp :: rest) =
        groupsLoop rest 1 (some (get_script_group cp)) 0 1 [] := by
      rw [groups, groupsLoop]
      simp
    have h2 := groupsLoop_run (cp :: rest) rest 1 0 1 (get_script_group cp) []
      (by rw [List.drop_succ_cons, List.drop_zero]) rfl (by omega)
      (by simp) ?_ ?_ ?_ ?_
    · rw [h1]
      refine ⟨h2.1, ?_, h2.2⟩
      have := tiles_sum _ _ _ h2.1
      omega
    · intro j hj1 hj2
      have : j = 0 := by omega
      rw [this]
      rfl
    · intro j
      simp [isStart]
    · exact ⟨by simp, Or.inl rfl⟩
    · rw [Tiles]

/-! ### Per-group glyph record rewrite (compression mode) -/

theorem tiles_le : ∀ (l : List (Nat × Nat)) (s t : Nat), Tiles s t l → s ≤ t := by
  intro l
  induction l with
  | nil =>
    intro s t h
    rw [Tiles] at h
    omega
  | cons g rest ih =>
    intro s t h
    rw [Tiles] at h
    have := ih _ _ h.2.2
    omega

theorem tiles_mem_lb : ∀ (l : List (Nat × Nat)) (s t : Nat) (g : Nat × Nat),
    Tiles s t l → g ∈ l → s ≤ g.1 := by
  intro l
  induction l with
  | nil =>
    intro s t g _ hg
    cases hg
  | cons g2 rest ih =>
    intro s t g h hg
    rw [Tiles] at h
    rcases List.mem_cons.mp hg with rfl | hg2
    · omega
    · have := ih _ _ _ h.2.2 hg2
      omega

theorem tiles_mem_ub : ∀ (l : List (Nat × Nat)) (s t : Nat) (g : Nat × Nat),
    Tiles s t l → g ∈ l → g.1 + g.2 ≤ t := by
  intro l
  induction l with
  | nil =>
    intro s t g _ hg
    cases hg
  | cons g2 rest ih =>
    intro s t g h hg
    rw [Tiles] at h
    rcases List.mem_cons.mp hg with rfl | hg2
    · have := tiles_le _ _ _ h.2.2
      omega
    · exact ih _ _ _ h.2.2 hg2

theorem mem_range_step1 : ∀ (n s j : Nat), j ∈ List.range' s n ↔ s ≤ j ∧ j < s + n := by
  intro n
  induction n with
  | zero =>
    intro s j
    simp [List.range']
  | succ n ih =>
    intro s j
    rw [List.range'_succ, List.mem_cons, ih]
    omega

/-- The glyph record fields of fontconvert.py's GlyphProps namedtuple. -/
structure GlyphProps where
  width : Nat
  height : Nat
  advance_x : Nat
  left : Int
  top : Int
  data_length : Nat
  data_offset : Nat
  code_point : Nat
deriving DecidableEq, Inhabited

/-- The inner loop of lines 706-724: walk the glyphs of one group, set each
record's data_offset to the running length of the concatenated group data,
then append the glyph's packed bytes. -/
def innerLoop : List GlyphProps → List (List Nat) → Nat → Nat → List Nat →
    List GlyphProps × List Nat
  | mods, _, _, 0, groupData => (mods, groupData)
  | mods, packs, gi, count + 1, groupData =>
      let packed := packs.getD gi []
      let old := mods.getD gi default
      innerLoop (mods.set gi { old with data_offset := groupData.length })
        packs (gi + 1) count (groupData ++ packed)

/-- `modified_glyph_props` (lines 704-734): rewrite every group's records. -/
def modified_glyph_props (glyphProps : List GlyphProps) (packs : List (List Nat))
    (grps : List (Nat × Nat)) : List GlyphProps :=
  grps.foldl (fun mods g => (innerLoop mods packs g.1 g.2 []).1) glyphProps

theorem getD_set_ne {α : Type} (d : α) :
    ∀ (l : List α) (i j : Nat) (a : α), i ≠ j →
      (l.set i a).getD j d = l.getD j d := by
  intro l
  induction l with
  | nil =>
    intro i j a _
    rw [List.set_nil]
  | cons b l ih =>
    intro i j a hij
    cases i with
    | zero =>
      cases j with
      | zero => exact absurd rfl hij
      | succ k => rw [List.set_cons_zero]; rfl
    | succ i =>
      cases j with
      | zero => rw [List.set_cons_succ]; rfl
      | succ k =>
        rw [List.set_cons_succ]
        exact ih i k a (by omega)

theorem getD_set_self {α : Type} (d : α) :
    ∀ (l : List α) (i : Nat) (a : α), i < l.length →
      (l.set i a).getD i d = a := by
  intro l
  induction l with
  | nil =>
    intro i a h
    simp at h
  | cons b l ih =>
    intro i a h
    cases i with
    | zero => rw [List.set_cons_zero]; rfl
    | succ i =>
      rw [List.set_cons_succ]
      exact ih i a (by simp at h; omega)

theorem innerLoop_length : ∀ (count : Nat) (mods : List GlyphProps)
    (packs : List (List Nat)) (gi : Nat) (gd : List Nat),
    (innerLoop mods packs gi count gd).1.length = mods.length := by
  intro count
  induction count with
  | zero =>
    intro mods packs gi gd
    rfl
  | succ count ih =>
    intro mods packs gi gd
    rw [innerLoop]
    rw [ih]
    rw [List.length_set]

theorem innerLoop_untouched : ∀ (count : Nat) (mods : List GlyphProps)
    (packs : List (List Nat)) (gi : Nat) (gd : List Nat) (j : Nat),
    j < gi ∨ gi + count ≤ j →
    (innerLoop mods packs gi count gd).1.getD j default = mods.getD j default := by
  intro count
  induction count with
  | zero =>
    intro mods packs gi gd j _
    rfl
  | succ count ih =>
    intro mods packs gi gd j hj
    rw [innerLoop]
    rw [ih _ _ _ _ j (by omega)]
    exact getD_set_ne default mods gi j _ (by omega)

theorem innerLoop_set : ∀ (count k : Nat) (mods : List GlyphProps)
    (packs : List (List Nat)) (gi : Nat) (gd : List Nat),
    k < count → gi + count ≤ mods.length →
    (innerLoop mods packs gi count gd).1.getD (gi + k) default =
      { mods.getD (gi + k) default with data_offset :=
        gd.length + ((List.range' gi k).map (fun j => (packs.getD j []).length)).sum } := by
  intro count
  induction count with
  | zero =>
    intro k mods packs gi gd hk _
    omega
  | succ count ih =>
    intro k mods packs gi gd hk hlen
    rw [innerLoop]
    cases k with
    | zero =>
      rw [innerLoop_untouched count _ _ _ _ (gi + 0) (by omega)]
      have h0 : gi + 0 = gi := by omega
      rw [h0, getD_set_self default mods gi _ (by omega)]
      simp
    | succ k =>
      have hidx : gi + (k + 1) = (gi + 1) + k := by omega
      rw [hidx, ih k _ _ (gi + 1) _ (by omega) (by rw [List.length_set]; omega)]
      rw [getD_set_ne default mods gi _ _ (by omega)]
      have heq : (gd ++ packs.getD gi []).length +
          ((List.range' (gi + 1) k).map (fun j => (packs.getD j []).length)).sum =
          gd.length + ((List.range' gi (k + 1)).map
            (fun j => (packs.getD j []).length)).sum := by
        rw [List.length_append, List.range'_succ, List.map_cons, List.sum_cons]
        omega
      rw [heq]

theorem modified_length : ∀ (grps : List (Nat × Nat)) (gp : List GlyphProps)
    (packs : List (List Nat)),
    (modified_glyph_props gp packs grps).length = gp.length := by
  intro grps
  induction grps with
  | nil =>
    intro gp packs
    rfl
  | cons g grps ih =>
    intro gp packs
    rw [modified_glyph_props, List.foldl_cons]
    rw [show List.foldl (fun mods g => (innerLoop mods packs g.1 g.2 []).1)
      ((innerLoop gp packs g.1 g.2 []).1) grps =
      modified_glyph_props ((innerLoop gp packs g.1 g.2 []).1) packs grps from rfl]
    rw [ih, innerLoop_length]

theorem modified_untouched : ∀ (grps : List (Nat × Nat)) (s n : Nat)
    (gp : List GlyphProps) (packs : List (List Nat)),
    Tiles s n grps → ∀ j, j < s →
    (modified_glyph_props gp packs grps).getD j default = gp.getD j default := by
  intro grps
  induction grps with
  | nil =>
    intro s n gp packs _ j _
    rfl
  | cons g grps ih =>
    intro s n gp packs ht j hj
    rw [Tiles] at ht
    rw [modified_glyph_props, List.foldl_cons]
    rw [show List.foldl (fun mods g => (innerLoop mods packs g.1 g.2 []).1)
      ((innerLoop gp packs g.1 g.2 []).1) grps =
      modified_glyph_props ((innerLoop gp packs g.1 g.2 []).1) packs grps from rfl]
    rw [ih _ _ _ _ ht.2.2 j (by omega)]
    exact innerLoop_untouched _ _ _ _ _ j (by omega)

theorem modified_set : ∀ (grps : List (Nat × Nat)) (s n : Nat)
    (gp : List GlyphProps) (packs : List (List Nat)),
    Tiles s n grps → gp.length = n →
    ∀ gs gc, (gs, gc) ∈ grps → ∀ k, k < gc →
    (modified_glyph_props gp packs grps).getD (gs + k) default =
      { gp.getD (gs + k) default with data_offset :=
        ((List.range' gs k).map (fun j => (packs.getD j []).length)).sum } := by
  intro grps
  induction grps with
  | nil =>
    intro s n gp packs _ _ gs gc hmem
    cases hmem
  | cons g grps ih =>
    intro s n gp packs ht hlen gs gc hmem k hk
    rw [Tiles] at ht
    rcases ht with ⟨hg1, hg2, htl⟩
    rw [modified_glyph_props, List.foldl_cons]
    rw [show List.foldl (fun mods g => (innerLoop mods packs g.1 g.2 []).1)
      ((innerLoop gp packs g.1 g.2 []).1) grps =
      modified_glyph_props ((innerLoop gp packs g.1 g.2 []).1) packs grps from rfl]
    rcases List.mem_cons.mp hmem with heq | hmem2
    · have hgs : gs = g.1 := congrArg Prod.fst heq
      have hgc : gc = g.2 := congrArg Prod.snd heq
      subst hgs
      subst hgc
      have hub : s + g.2 ≤ n := tiles_le _ _ _ htl
      rw [modified_untouched grps (s + g.2) n _ packs htl (g.1 + k) (by omega)]
      rw [innerLoop_set g.2 k gp packs g.1 [] hk (by omega)]
      simp
    · have hlb : s + g.2 ≤ gs := by
        have := tiles_mem_lb _ _ _ _ htl hmem2
        omega
      rw [ih (s + g.2) n _ packs htl (by rw [innerLoop_length]; omega)
        gs gc hmem2 k hk]
      rw [innerLoop_untouched _ _ _ _ _ _ (by omega)]

/-- C10: offset-rewrite frame condition.  The per-group rewrite keeps the
number and order of glyph records: the record at each index equals the
original record with only data_offset replaced, and the new data_offset of
the k-th member of a group is the sum of the data_length fields of the k
preceding members of that group (0 for the first member), provided each
record's data_length is the length of its packed bitmap. -/
theorem offset_rewrite_frame (glyphProps : List GlyphProps)
    (packs : List (List Nat)) (grps : List (Nat × Nat))
    (htile : Tiles 0 glyphProps.length grps)
    (hdl : ∀ j, j < glyphProps.length →
      (glyphProps.getD j default).data_length = (packs.getD j []).length) :
    (modified_glyph_props glyphProps packs grps).length = glyphProps.length ∧
      ∀ gs gc, (gs, gc) ∈ grps → ∀ k, k < gc →
        (modified_glyph_props glyphProps packs grps).getD (gs + k) default =
          { glyphProps.getD (gs + k) default with data_offset :=
            ((List.range' gs k).map
              (fun j => (glyphProps.getD j default).data_length)).sum } := by
  refine ⟨modified_length grps glyphProps packs, ?_⟩
  intro gs gc hmem k hk
  rw [modified_set grps 0 glyphProps.length glyphProps packs htile rfl
    gs gc hmem k hk]
  have hub : gs + gc ≤ glyphProps.length := tiles_mem_ub _ _ _ _ htile hmem
  have hmap : (List.range' gs k).map (fun j => (packs.getD j []).length) =
      (List.range' gs k).map (fun j => (glyphProps.getD j default).data_length) := by
    refine List.map_congr_left ?_
    intro j hj
    rw [mem_range_step1] at hj
    exact (hdl j (by omega)).symm
  rw [hmap]

def gpEx1 : GlyphProps := ⟨3, 4, 5, 1, 2, 2, 0, 65⟩

def gpEx2 : GlyphProps := ⟨3, 3, 5, 0, 1, 3, 7, 66⟩

theorem offset_rewrite_frame_witness :
    (modified_glyph_props [gpEx1, gpEx2] [[9, 9], [8, 8, 8]] [(0, 2)]).getD
        (0 + 1) default =
      { [gpEx1, gpEx2].getD (0 + 1) default with data_offset :=
        ((List.range' 0 1).map
          (fun j => ([gpEx1, gpEx2].getD j default).data_length)).sum } :=
  (offset_rewrite_frame [gpEx1, gpEx2] [[9, 9], [8, 8, 8]] [(0, 2)]
    (by decide) (by decide)).2 0 2 (by decide) 1 (by decide)

/-! ### Ligature pair extraction and chaining -/

/-- Pack two codepoints into one table key, line 597: (a << 16) | b. -/
def packLig (a b : Nat) : Nat := (a <<< 16) ||| b

/-- The cover filter of lines 581-586: keep a rule when its output is in
the font's codepoint set or the global set, and all inputs are covered. -/
def lig_filter (raw : List (List Nat × Nat)) (codepoints allCps : List Nat) :
    List (List Nat × Nat) :=
  raw.filter (fun q =>
    (decide (q.2 ∈ codepoints) || decide (q.2 ∈ allCps)) &&
      q.1.all (fun cp => decide (cp ∈ codepoints)))

/-- Dict lookup over the filtered rule list (keys are unique sequences). -/
def lookupSeq (filtered : List (List Nat × Nat)) (s : List Nat) : Option Nat :=
  (filtered.find? (fun q => q.1 == s)).map Prod.snd

/-- First pass, lines 595-598: the 2-codepoint rules become direct pairs. -/
def two_char_pairs (filtered : List (List Nat × Nat)) : List (Nat × Nat) :=
  (filtered.filter (fun q => q.1.length == 2)).map
    (fun q => (packLig (q.1.getD 0 0) (q.1.getD 1 0), q.2))

/-- Second pass, lines 600-615: a 3+ codepoint rule chains through the rule
for its prefix when that rule exists, else it is skipped. -/
def chain_pairs (filtered : List (List Nat × Nat)) : List (Nat × Nat) :=
  filtered.filterMap (fun q =>
    if q.1.length < 3 then none
    else match lookupSeq filtered q.1.dropLast with
      | some inter => some (packLig inter (q.1.getD (q.1.length - 1) 0), q.2)
      | none => none)

def extract_ligatures (filtered : List (List Nat × Nat)) : List (Nat × Nat) :=
  two_char_pairs filtered ++ chain_pairs filtered

/-- Lines 635-638: concatenate the per-font extraction results. -/
def ligature_pairs (filteredPerFont : List (List (List Nat × Nat))) :
    List (Nat × Nat) :=
  (filteredPerFont.map extract_ligatures).flatten

/-- Lines 641-646: keep the first occurrence of each packed key. -/
def dedupLigAux : List (Nat × Nat) → List Nat → List (Nat × Nat)
  | [], _ => []
  | p :: rest, seen =>
      if p.1 ∈ seen then dedupLigAux rest seen
      else p :: dedupLigAux rest (p.1 :: seen)

def unique_ligature_pairs (ps : List (Nat × Nat)) : List (Nat × Nat) :=
  dedupLigAux ps []

def keyLe (p q : Nat × Nat) : Prop := p.1 ≤ q.1

instance : DecidableRel keyLe :=
  fun p q => inferInstanceAs (Decidable (p.1 ≤ q.1))

instance : IsTotal (Nat × Nat) keyLe := ⟨fun p q => Nat.le_total p.1 q.1⟩

instance : IsTrans (Nat × Nat) keyLe := ⟨fun _ _ _ h1 h2 => Nat.le_trans h1 h2⟩

/-- Line 647: stable sort of the deduplicated pairs by packed key. -/
def final_ligature_pairs (filteredPerFont : List (List (List Nat × Nat))) :
    List (Nat × Nat) :=
  List.insertionSort keyLe (unique_ligature_pairs (ligature_pairs filteredPerFont))

def rawCx : List (List Nat × Nat) := [([1, 2], 4), ([4, 3], 6), ([1, 2, 3], 5)]

def cpsCx : List Nat := [1, 2, 3, 4, 5, 6]

def filteredCx : List (List Nat × Nat) := lig_filter rawCx cpsCx cpsCx

/-- C7 counterexample: one font's filtered rules hold (1,2)→4, (4,3)→6 and
(1,2,3)→5, all codepoints covered.  The 3-codepoint rule chains through its
prefix to the pair key packLig 4 3, but the first-wins dedup keeps the
direct rule (4,3)→6 for that key, so the chained entry (packLig 4 3, 5) is
absent from the final table. -/
theorem ligature_chain_counterexample :
    filteredCx = rawCx ∧
      lookupSeq filteredCx [1, 2] = some 4 ∧
      ([1, 2, 3], 5) ∈ filteredCx ∧
      (packLig 4 3, 5) ∉ final_ligature_pairs [filteredCx] ∧
      (packLig 4 3, 6) ∈ final_ligature_pairs [filteredCx] := by
  decide

theorem find?_cons_eq {α : Type} (f : α → Bool) (a : α) (l : List α) :
    List.find? f (a :: l) = if f a then some a else List.find? f l := by
  rw [List.find?_cons]
  cases f a
  · rfl
  · rfl

theorem dedupLigAux_mem : ∀ (ps : List (Nat × Nat)) (seen : List Nat)
    (p : Nat × Nat), p ∈ dedupLigAux ps seen ↔
      (p.1 ∉ seen ∧ ps.find? (fun q => q.1 == p.1) = some p) := by
  intro ps
  induction ps with
  | nil =>
    intro seen p
    rw [dedupLigAux]
    simp
  | cons q rest ih =>
    intro seen p
    by_cases hq : q.1 ∈ seen
    · rw [dedupLigAux, if_pos hq, ih]
      constructor
      · rintro ⟨hns, hfind⟩
        have hne : ¬ ((fun q2 : Nat × Nat => q2.1 == p.1) q = true) := by
          show ¬ ((q.1 == p.1) = true)
          intro hc
          exact hns (by rw [← eq_of_beq hc]; exact hq)
        refine ⟨hns, ?_⟩
        rw [find?_cons_eq, if_neg hne]
        exact hfind
      · rintro ⟨hns, hfind⟩
        have hne : ¬ ((fun q2 : Nat × Nat => q2.1 == p.1) q = true) := by
          show ¬ ((q.1 == p.1) = true)
          intro hc
          exact hns (by rw [← eq_of_beq hc]; exact hq)
        refine ⟨hns, ?_⟩
        rw [find?_cons_eq, if_neg hne] at hfind
        exact hfind
    · rw [dedupLigAux, if_neg hq, List.mem_cons, ih]
      constructor
      · rintro (rfl | ⟨hns, hfind⟩)
        · have hpos : ((fun q2 : Nat × Nat => q2.1 == p.1) p) = true :=
            beq_self_eq_true p.1
          exact ⟨hq, by rw [find?_cons_eq, if_pos hpos]⟩
        · have hne : ¬ ((fun q2 : Nat × Nat => q2.1 == p.1) q = true) := by
            show ¬ ((q.1 == p.1) = true)
            intro hc
            exact hns (by rw [← eq_of_beq hc]; exact List.mem_cons_self _ _)
          refine ⟨fun h => hns (List.mem_cons_of_mem _ h), ?_⟩
          rw [find?_cons_eq, if_neg hne]
          exact hfind
      · rintro ⟨hns, hfind⟩
        by_cases hqp : q.1 = p.1
        · have hpos : ((fun q2 : Nat × Nat => q2.1 == p.1) q) = true := by
            show (q.1 == p.1) = true
            rw [hqp]
            exact beq_self_eq_true p.1
          rw [find?_cons_eq, if_pos hpos] at hfind
          exact Or.inl (Option.some.inj hfind).symm
        · have hne : ¬ ((fun q2 : Nat × Nat => q2.1 == p.1) q = true) := by
            show ¬ ((q.1 == p.1) = true)
            intro hc
            exact hqp (eq_of_beq hc)
          rw [find?_cons_eq, if_neg hne] at hfind
          refine Or.inr ⟨?_, hfind⟩
          intro h
          rcases List.mem_cons.mp h with h2 | h2
          · exact hqp h2.symm
          · exact hns h2

/-- C7 (amended): ligature chain decomposition and first-wins dedup.  Every
filtered 2-codepoint rule of a font yields its direct pair, and every 3+
codepoint rule whose prefix has a filtered rule yields the chained pair
(intermediate, last) → output, into the concatenated pair stream; all table
keys are such packed pairs (the table is strictly pairwise).  The final
table however retains, for each packed key, exactly the FIRST pair of the
stream with that key: a chained entry survives only if no earlier produced
pair (e.g. a direct rule of the same or an earlier font) used its key. -/
theorem ligature_chain (fs : List (List (List Nat × Nat))) :
    (∀ F ∈ fs, ∀ q ∈ F,
      (q.1.length = 2 →
        (packLig (q.1.getD 0 0) (q.1.getD 1 0), q.2) ∈ ligature_pairs fs) ∧
      (3 ≤ q.1.length → ∀ inter, lookupSeq F q.1.dropLast = some inter →
        (packLig inter (q.1.getD (q.1.length - 1) 0), q.2) ∈ ligature_pairs fs)) ∧
    (∀ p, p ∈ final_ligature_pairs fs ↔
      (ligature_pairs fs).find? (fun q => q.1 == p.1) = some p) := by
  constructor
  · intro F hF q hq
    constructor
    · intro hlen2
      refine List.mem_flatten.mpr ⟨extract_ligatures F,
        List.mem_map.mpr ⟨F, hF, rfl⟩, ?_⟩
      rw [extract_ligatures]
      refine List.mem_append_left _ ?_
      rw [two_char_pairs]
      exact List.mem_map.mpr ⟨q, List.mem_filter.mpr ⟨hq, by simp [hlen2]⟩, rfl⟩
    · intro hlen3 inter hlook
      refine List.mem_flatten.mpr ⟨extract_ligatures F,
        List.mem_map.mpr ⟨F, hF, rfl⟩, ?_⟩
      rw [extract_ligatures]
      refine List.mem_append_right _ ?_
      rw [chain_pairs]
      refine List.mem_filterMap.mpr ⟨q, hq, ?_⟩
      show (if q.1.length < 3 then none
        else match lookupSeq F q.1.dropLast with
          | some inter => some (packLig inter (q.1.getD (q.1.length - 1) 0), q.2)
          | none => none) = some _
      rw [if_neg (by omega), hlook]
  · intro p
    rw [final_ligature_pairs]
    rw [(List.perm_insertionSort keyLe _).mem_iff]
    rw [unique_ligature_pairs, dedupLigAux_mem]
    simp

def ffFiltered : List (List Nat × Nat) :=
  [([102, 102], 64256), ([102, 102, 105], 64259)]

theorem ligature_chain_witness :
    (packLig 64256 105, 64259) ∈ ligature_pairs [ffFiltered] ∧
      ((packLig 102 102, 64256) ∈ final_ligature_pairs [ffFiltered] ↔
        (ligature_pairs [ffFiltered]).find?
          (fun q => q.1 == (packLig 102 102, 64256).1) =
            some (packLig 102 102, 64256)) :=
  ⟨((ligature_chain [ffFiltered]).1 ffFiltered (by decide)
      ([102, 102, 105], 64259) (by decide)).2 (by decide) 64256 (by decide),
    (ligature_chain [ffFiltered]).2 (packLig 102 102, 64256)⟩

end FontConvert